import Mathlib

/-!
Verification of the lattice determinizer in `fstext/determinize-lattice-inl.h`.

The development shallowly embeds the determinizer:

* machine integers become `Nat`;
* the templated semiring weight becomes a type `W` together with a record
  `WOps W` of the operations the C++ code requires of it (`Plus`, `Times`,
  `Divide`, `Zero`, `One`, the total-order `Compare` and the delta-tolerant
  `ApproxEqual`);
* the hash-consed label sequences of `LatticeStringRepository` are modelled in
  two ways: inside the determinizer an interned string is represented by the
  label sequence it denotes (`List Nat`), which is faithful because
  hash-consing makes handles and sequences bijective -- a fact proved
  separately on an explicit arena model of the repository (`StringRepo`);
* fallible code (the C++ `assert` calls) returns `Except DetErr`, and the
  work-list loops that the C++ does not prove terminating take explicit fuel,
  with fuel exhaustion reported as `DetErr.outOfFuel`.
-/

/-- The operations the determinizer requires of its weight semiring.
`cmp` is the total-order `Compare` returning -1/0/1, `approxEq` is
`ApproxEqual` at the configured `delta`. -/
structure WOps (W : Type) where
  plus : W → W → W
  times : W → W → W
  divide : W → W → W
  zero : W
  one : W
  cmp : W → W → Int
  approxEq : W → W → Bool

/-- An arc of the input automaton: `(ilabel, olabel, weight, nextstate)`. -/
structure IArc (W : Type) where
  ilabel : Nat
  olabel : Nat
  weight : W
  nextstate : Nat
deriving DecidableEq

/-- The read-only input automaton: start state, per-state final weight,
per-state arc list, and the cached `kILabelSorted` property bit. -/
structure IFst (W : Type) where
  start : Option Nat
  final : Nat → W
  arcsOf : Nat → List (IArc W)
  ilabelSorted : Bool

/-- Element of a subset of input states: `(state, string, weight)`.
The interned string is represented by the label sequence it denotes. -/
structure Element (W : Type) where
  state : Nat
  string : List Nat
  weight : W
deriving DecidableEq

/-- The determinizer's temporary arc: a `nextstate` of `none` is the
`kNoStateId` final-weight marker. -/
structure TempArc (W : Type) where
  ilabel : Nat
  string : List Nat
  nextstate : Option Nat
  weight : W
deriving DecidableEq

/-- How a modelled run can fail: a C++ `assert` firing, or the explicit fuel
running out on a loop whose termination the C++ does not guarantee. -/
inductive DetErr where
  | assertFail
  | outOfFuel
deriving DecidableEq

instance {E A : Type} [DecidableEq E] [DecidableEq A] : DecidableEq (Except E A)
  | .ok a, .ok b => decidable_of_iff (a = b) (by simp)
  | .error e, .error f => decidable_of_iff (e = f) (by simp)
  | .ok _, .error _ => isFalse (by simp)
  | .error _, .ok _ => isFalse (by simp)

/-- Longest common prefix of two label sequences (the scan loop shared by
`CommonPrefix` and `ReduceToCommonPrefix`). -/
def commonPfx : List Nat → List Nat → List Nat
  | x :: xs, y :: ys => if x = y then x :: commonPfx xs ys else []
  | _, _ => []

/-- C++ `LatticeStringRepository::ReduceToCommonPrefix(a, b)`: truncates the
materialized vector `b` to its longest common prefix with (the sequence of)
`a`.  The C++ first resizes `b` down to `|a|` and then scans. -/
def reduceToCommonPfx (a b : List Nat) : List Nat :=
  commonPfx (b.take a.length) a

/-- C++ `LatticeStringRepository::RemovePrefix(a, n)`: drops the first `n`
labels of `a`; `assert(a_vec.size() >= n)` becomes the error case. -/
def removePfx (a : List Nat) (n : Nat) : Except DetErr (List Nat) :=
  if n = 0 then .ok a
  else if a.length < n then .error .assertFail
  else .ok (a.drop n)

/-- Length-then-lexicographic comparison of label sequences, as in the string
part of `LatticeDeterminizer::Compare`. -/
def cmpList : List Nat → List Nat → Int
  | [], [] => 0
  | [], _ :: _ => -1
  | _ :: _, [] => 1
  | x :: xs, y :: ys =>
    if xs.length < ys.length then -1
    else if ys.length < xs.length then 1
    else if x < y then -1
    else if y < x then 1
    else cmpList xs ys

/-- C++ `LatticeDeterminizer::Compare(a_w, a_str, b_w, b_str)`: the weight
total order first, then (for distinct handles) length-lexicographic string
order. -/
def cmpWS (ops : WOps W) (aw : W) (as' : List Nat) (bw : W) (bs : List Nat) : Int :=
  let c := ops.cmp aw bw
  if c ≠ 0 then c
  else if as' = bs then 0
  else cmpList as' bs

/-- The second loop of `NormalizeSubset`: divide every weight by the total and
strip the common prefix from every string (via `RemovePrefix`). -/
def divideAll (ops : WOps W) (w : W) (n : Nat) :
    List (Element W) → Except DetErr (List (Element W))
  | [] => .ok []
  | e :: rest => do
    let s ← removePfx e.string n
    let rest' ← divideAll ops w n rest
    .ok (⟨e.state, s, ops.divide e.weight w⟩ :: rest')

/-- C++ `LatticeDeterminizer::NormalizeSubset`: one pass accumulates the
`Plus`-total of the weights and reduces the running common prefix against each
string; `assert(!elems->empty())` and `assert(weight != Weight::Zero())`
become the error cases; a second pass rewrites the elements.  Returns the
rewritten subset, the extracted common string and the extracted total
weight. -/
def normalizeSubset [DecidableEq W] (ops : WOps W) (elems : List (Element W)) :
    Except DetErr (List (Element W) × List Nat × W) :=
  match elems with
  | [] => .error .assertFail
  | e0 :: rest =>
    let acc := rest.foldl
      (fun (a : W × List Nat) e => (ops.plus a.1 e.weight, reduceToCommonPfx e.string a.2))
      (e0.weight, e0.string)
    if acc.1 = ops.zero then .error .assertFail
    else do
      let elems' ← divideAll ops acc.1 acc.2.length (e0 :: rest)
      .ok (elems', acc.2, acc.1)

/-- The `Plus`-sum of a subset's weights in the order `NormalizeSubset`
accumulates it (`ops.zero` for the empty subset, which `NormalizeSubset`
rejects). -/
def wSum (ops : WOps W) : List (Element W) → W
  | [] => ops.zero
  | e :: rest => rest.foldl (fun a e2 => ops.plus a e2.weight) e.weight

/-- C++ `LatticeDeterminizer::IsOsymbolOrFinal`.  The body first tests
`ifst_->Final(state) != Weight::Zero()`, but that branch only writes `OSF_YES`
into the cache -- there is no `return true` -- and control falls through into
the arc scan; when no arc has a nonzero output label the scan's fall-through
then overwrites the cache with `OSF_NO` and returns false.  The returned value
(first call and, via the cache, every later call) therefore depends solely on
whether some outgoing arc carries a nonzero output label, and finality of the
state never makes the function return true. -/
def isOsymbolOrFinal (fst : IFst W) (s : Nat) : Bool :=
  (fst.arcsOf s).any fun a => decide (a.olabel ≠ 0)

/-- C++ `LatticeDeterminizer::ConvertToMinimal`: `assert(!subset->empty())`,
then keep exactly the elements whose state passes `IsOsymbolOrFinal`. -/
def convertToMinimal (fst : IFst W) (subset : List (Element W)) :
    Except DetErr (List (Element W)) :=
  match subset with
  | [] => .error .assertFail
  | _ :: _ => .ok (subset.filter fun e => isOsymbolOrFinal fst e.state)

/-- The epsilon arcs `EpsilonClosure` scans from a state: when the input is
known input-label sorted the arc loop breaks at the first nonzero `ilabel`,
otherwise it skips non-epsilon arcs; either way zero-weight epsilon arcs are
ignored. -/
def epsArcs [DecidableEq W] (ops : WOps W) (fst : IFst W) (s : Nat) : List (IArc W) :=
  (if fst.ilabelSorted then (fst.arcsOf s).takeWhile (fun a => a.ilabel == 0)
   else fst.arcsOf s).filter fun a => a.ilabel == 0 && decide (a.weight ≠ ops.zero)

/-- Insertion into the state-sorted closure set (`cur_subset.insert` plus the
compare-and-overwrite branch of `EpsilonClosure`): returns the new set and
whether the element was inserted or improved an existing entry (in both cases
the C++ pushes it onto the work list). -/
def closureInsert (ops : WOps W) (e : Element W) :
    List (Element W) → List (Element W) × Bool
  | [] => ([e], true)
  | x :: rest =>
    if e.state < x.state then (e :: x :: rest, true)
    else if e.state = x.state then
      if cmpWS ops e.weight e.string x.weight x.string = 1 then
        (⟨x.state, e.string, e.weight⟩ :: rest, true)
      else (x :: rest, false)
    else
      let p := closureInsert ops e rest
      (x :: p.1, p.2)

/-- One pop of `EpsilonClosure`'s work list: scan the popped element's epsilon
arcs, extending weight by `Times` and string by `Successor`, inserting each
next element into the set.  Returns the new set and the elements to push. -/
def epsStep [DecidableEq W] (ops : WOps W) (fst : IFst W) (elem : Element W)
    (cur : List (Element W)) : List (Element W) × List (Element W) :=
  (epsArcs ops fst elem.state).foldl
    (fun acc arc =>
      let ne : Element W := ⟨arc.nextstate,
        if arc.olabel = 0 then elem.string else elem.string ++ [arc.olabel],
        ops.times elem.weight arc.weight⟩
      let p := closureInsert ops ne acc.1
      (p.1, if p.2 then acc.2 ++ [ne] else acc.2))
    (cur, [])

/-- The `while (queue.size() != 0)` loop of `EpsilonClosure`, with explicit
fuel: the C++ loop has no termination guarantee.  The work list is LIFO
(`push_back`/`pop_back`), so freshly pushed elements are processed first. -/
def closureLoop [DecidableEq W] (ops : WOps W) (fst : IFst W) :
    Nat → List (Element W) → List (Element W) → Except DetErr (List (Element W))
  | _, cur, [] => .ok cur
  | 0, _, _ :: _ => .error .outOfFuel
  | fuel + 1, cur, e :: rest =>
    let p := epsStep ops fst e cur
    closureLoop ops fst fuel p.1 (p.2.reverse ++ rest)

/-- C++ `LatticeDeterminizer::EpsilonClosure`.  Callers pass a state-sorted,
duplicate-free subset; the initial `std::set` content is that subset and the
initial work list holds the same elements (popped back-to-front). -/
def epsilonClosure [DecidableEq W] (ops : WOps W) (fst : IFst W) (fuel : Nat)
    (subset : List (Element W)) : Except DetErr (List (Element W)) :=
  closureLoop ops fst fuel subset subset.reverse

/-- The inner run-merging loop of `MakeSubsetUnique`: absorb successive
elements with the same state, keeping the `Compare`-greatest (weight, string)
pair. -/
def makeSubsetUniqueAux (ops : WOps W) (cur : Element W) :
    List (Element W) → List (Element W)
  | [] => [cur]
  | x :: rest =>
    if x.state = cur.state then
      makeSubsetUniqueAux ops
        (if cmpWS ops x.weight x.string cur.weight cur.string = 1 then
          ⟨cur.state, x.string, x.weight⟩ else cur) rest
    else cur :: makeSubsetUniqueAux ops x rest

/-- C++ `LatticeDeterminizer::MakeSubsetUnique` on a state-sorted subset. -/
def makeSubsetUnique (ops : WOps W) : List (Element W) → List (Element W)
  | [] => []
  | x :: rest => makeSubsetUniqueAux ops x rest

/-- The scan of `ProcessFinal` over the minimal subset.  The C++ declares
`Weight final_weight;` without an initializer and `StringId final_string = 0`
(the empty string), and compares every candidate -- including the first --
against the current pair; the indeterminate initial weight is modelled by the
explicit parameter `garbage`. -/
def processFinalScan [DecidableEq W] (ops : WOps W) (fst : IFst W) (garbage : W)
    (subset : List (Element W)) : Option (W × List Nat) :=
  let r := subset.foldl
    (fun (acc : Bool × W × List Nat) e =>
      let fw := fst.final e.state
      if decide (fw ≠ ops.zero) &&
          decide (cmpWS ops fw e.string acc.2.1 acc.2.2 = 1) then
        (true, fw, e.string)
      else acc)
    (false, garbage, [])
  if r.1 then some (r.2.1, r.2.2) else none

/-- The determinizer's mutable state: `output_states_`, `output_arcs_`,
`minimal_hash_`, `initial_hash_` and the LIFO `queue_`.  The two hash tables
are modelled as association lists looked up with the `SubsetEqual` predicate
(the hash function only affects performance, and it hashes exactly the
state/string data that `SubsetEqual` compares exactly). -/
structure DState (W : Type) where
  outputStates : List (List (Element W))
  outputArcs : List (List (TempArc W))
  minimalHash : List (List (Element W) × Nat)
  initialHash : List (List (Element W) × Element W)
  queue : List Nat
deriving DecidableEq

/-- C++ `SubsetEqual`: same length, exact match on state and string, and
`ApproxEqual` (at delta) on weights, element by element. -/
def subsetEqual [DecidableEq W] (ops : WOps W) :
    List (Element W) → List (Element W) → Bool
  | [], [] => true
  | e1 :: t1, e2 :: t2 =>
    decide (e1.state = e2.state) && decide (e1.string = e2.string) &&
      ops.approxEq e1.weight e2.weight && subsetEqual ops t1 t2
  | _, _ => false

/-- Hash lookup keyed by `SubsetEqual`. -/
def findSubset {A : Type} [DecidableEq W] (ops : WOps W)
    (tbl : List (List (Element W) × A)) (s : List (Element W)) : Option A :=
  (tbl.find? fun p => subsetEqual ops p.1 s).map Prod.snd

/-- `output_arcs_[state].push_back(temp_arc)`. -/
def appendArc (st : DState W) (s : Nat) (ta : TempArc W) : DState W :=
  { st with outputArcs := st.outputArcs.set s (st.outputArcs.getD s [] ++ [ta]) }

/-- C++ `LatticeDeterminizer::MinimalToStateId`: look the minimal, normalized
subset up in `minimal_hash_`; on a miss allocate the next output state, record
it, and push it onto the queue (LIFO: `push_back` paired with `pop_back`, here
modelled as a cons-stack). -/
def minimalToStateId [DecidableEq W] (ops : WOps W) (st : DState W)
    (subset : List (Element W)) : DState W × Nat :=
  match findSubset ops st.minimalHash subset with
  | some id => (st, id)
  | none =>
    let id := st.outputArcs.length
    ({ st with
        outputStates := st.outputStates ++ [subset],
        outputArcs := st.outputArcs ++ [[]],
        minimalHash := (subset, id) :: st.minimalHash,
        queue := id :: st.queue }, id)

/-- C++ `LatticeDeterminizer::InitialToStateId`: consult `initial_hash_`
first; on a miss run epsilon closure, minimalization and normalization, get or
create the output state, and memoize the result (state id plus the extracted
remaining weight and string) keyed by the pre-closure subset.  Returns the
state id, the remaining weight and the remaining string. -/
def initialToStateId [DecidableEq W] (ops : WOps W) (fst : IFst W) (fuel : Nat)
    (st : DState W) (subset_in : List (Element W)) :
    Except DetErr (DState W × Nat × W × List Nat) :=
  match findSubset ops st.initialHash subset_in with
  | some elem => .ok (st, elem.state, elem.weight, elem.string)
  | none => do
    let subset₁ ← epsilonClosure ops fst fuel subset_in
    let subset₂ ← convertToMinimal fst subset₁
    let r ← normalizeSubset ops subset₂
    let p := minimalToStateId ops st r.1
    let st₂ := { p.1 with
      initialHash := (subset_in, ⟨p.2, r.2.1, r.2.2⟩) :: p.1.initialHash }
    .ok (st₂, p.2, r.2.2, r.2.1)

/-- C++ `LatticeDeterminizer::ProcessTransition`: deduplicate, normalize,
get or create the destination state, combine the local and residual weight by
`Times` and the strings by `Concatenate`, and record the arc. -/
def processTransition [DecidableEq W] (ops : WOps W) (fst : IFst W) (fuel : Nat)
    (st : DState W) (state ilabel : Nat) (subset : List (Element W)) :
    Except DetErr (DState W) := do
  let u := makeSubsetUnique ops subset
  let r ← normalizeSubset ops u
  let q ← initialToStateId ops fst fuel st r.1
  .ok (appendArc q.1 state
    ⟨ilabel, r.2.1 ++ q.2.2.2, some q.2.1, ops.times r.2.2 q.2.2.1⟩)

/-- The candidate `(ilabel, next-element)` pairs `ProcessTransitions` gathers:
every non-epsilon, non-`Zero`-weight arc out of every element of the minimal
subset, with weight extended by `Times` and string by `Successor`. -/
def transitionElems [DecidableEq W] (ops : WOps W) (fst : IFst W)
    (subset : List (Element W)) : List (Nat × Element W) :=
  subset.flatMap fun elem =>
    (fst.arcsOf elem.state).filterMap fun arc =>
      if arc.ilabel ≠ 0 ∧ arc.weight ≠ ops.zero then
        some (arc.ilabel, (⟨arc.nextstate,
          if arc.olabel = 0 then elem.string else elem.string ++ [arc.olabel],
          ops.times elem.weight arc.weight⟩ : Element W))
      else none

/-- The strict-weak-order comparator `PairComparator` of `ProcessTransitions`
(lexicographic on `(ilabel, state)`), as the non-strict test used by the
insertion-sort model of `std::sort` below. -/
def pairLE (p q : Nat × Element W) : Bool :=
  decide (p.1 < q.1) || (decide (p.1 = q.1) && decide (p.2.state ≤ q.2.state))

/-- Ordered insertion for the `std::sort` model. -/
def insertPair (x : Nat × Element W) :
    List (Nat × Element W) → List (Nat × Element W)
  | [] => [x]
  | y :: ys => if pairLE x y then x :: y :: ys else y :: insertPair x ys

/-- Model of `std::sort(all_elems.begin(), all_elems.end(), pc)`: sorting under
`PairComparator`.  `std::sort` leaves the order of comparator-ties
unspecified; the determinizer's behaviour does not depend on it because
equal-`(ilabel, state)` elements are merged by `Compare` in
`MakeSubsetUnique`. -/
def sortPairs (l : List (Nat × Element W)) : List (Nat × Element W) :=
  l.foldr insertPair []

/-- Grouping of the sorted pair list into maximal runs that share an
`ilabel` (the nested `while` loops of `ProcessTransitions`). -/
def groupPairsAux : List (Nat × Element W) → Nat → List (Element W) →
    List (Nat × List (Element W))
  | [], l, acc => [(l, acc.reverse)]
  | (l', e) :: rest, l, acc =>
    if l' = l then groupPairsAux rest l (e :: acc)
    else (l, acc.reverse) :: groupPairsAux rest l' [e]

/-- Top-level grouping of the sorted pair list by `ilabel`. -/
def groupPairs : List (Nat × Element W) → List (Nat × List (Element W))
  | [] => []
  | (l, e) :: rest => groupPairsAux rest l [e]

/-- One `ProcessTransition` call per `ilabel` group. -/
def runGroups [DecidableEq W] (ops : WOps W) (fst : IFst W) (fuel state : Nat) :
    DState W → List (Nat × List (Element W)) → Except DetErr (DState W)
  | st, [] => .ok st
  | st, (l, sub) :: rest => do
    let st' ← processTransition ops fst fuel st state l sub
    runGroups ops fst fuel state st' rest

/-- C++ `LatticeDeterminizer::ProcessTransitions`: gather, sort, group by
`ilabel`, and process each group. -/
def processTransitions [DecidableEq W] (ops : WOps W) (fst : IFst W)
    (fuel : Nat) (st : DState W) (output_state : Nat) : Except DetErr (DState W) :=
  let minimal_subset := st.outputStates.getD output_state []
  runGroups ops fst fuel output_state st
    (groupPairs (sortPairs (transitionElems ops fst minimal_subset)))

/-- C++ `LatticeDeterminizer::ProcessFinal`: run the final-weight scan over the
state's minimal subset and, when a final pair was recorded, append the
`kNoStateId` final-marker arc. -/
def processFinal [DecidableEq W] (ops : WOps W) (fst : IFst W) (garbage : W)
    (st : DState W) (output_state : Nat) : DState W :=
  match processFinalScan ops fst garbage (st.outputStates.getD output_state []) with
  | some p => appendArc st output_state ⟨0, p.2, none, p.1⟩
  | none => st

/-- C++ `LatticeDeterminizer::ProcessState`: final weights first, then the
emitting transitions. -/
def processState [DecidableEq W] (ops : WOps W) (fst : IFst W) (fuel : Nat)
    (garbage : W) (st : DState W) (output_state : Nat) : Except DetErr (DState W) :=
  processTransitions ops fst fuel (processFinal ops fst garbage st output_state)
    output_state

/-- The `while (!queue_.empty())` loop of `Determinize`, with explicit fuel;
termination is only guaranteed when the reachable canonical-subset space is
finite. -/
def detLoop [DecidableEq W] (ops : WOps W) (fst : IFst W) (garbage : W) :
    Nat → DState W → Except DetErr (DState W)
  | fuel, st =>
    match st.queue with
    | [] => .ok st
    | s :: rest =>
      match fuel with
      | 0 => .error .outOfFuel
      | f + 1 => do
        let st₂ ← processState ops fst f garbage { st with queue := rest } s
        detLoop ops fst garbage f st₂

/-- C++ `LatticeDeterminizer::Initialize`: with no start state nothing is
created; otherwise seed `(start, EmptyString, One)`, close and minimalize it
without normalization, and make it output state 0. -/
def detInit [DecidableEq W] (ops : WOps W) (fst : IFst W) (fuel : Nat) :
    Except DetErr (DState W) :=
  match fst.start with
  | none => .ok ⟨[], [], [], [], []⟩
  | some s0 => do
    let subset ← epsilonClosure ops fst fuel [⟨s0, [], ops.one⟩]
    let subset' ← convertToMinimal fst subset
    .ok ⟨[subset'], [[]], [(subset', 0)], [], [0]⟩

/-- The constructor's pipeline: `Initialize()` then `Determinize()`. -/
def latticeDeterminize [DecidableEq W] (ops : WOps W) (fst : IFst W)
    (garbage : W) (fuel : Nat) : Except DetErr (DState W) := do
  let st ← detInit ops fst fuel
  detLoop ops fst garbage fuel st

/-- An arc of the expanded (non-compact) output FST. -/
structure OArc (W : Type) where
  ilabel : Nat
  olabel : Nat
  weight : W
  nextstate : Nat
deriving DecidableEq

/-- The expanded output FST under construction: state count, start state,
arcs in `AddArc` order tagged with their source state, and `SetFinal`
records. -/
structure OFst (W : Type) where
  numStates : Nat
  start : Option Nat
  arcs : List (Nat × OArc W)
  finals : List (Nat × W)
deriving DecidableEq

/-- An arc of the compact (acceptor) output FST: its weight carries the
label sequence. -/
structure CArc (W : Type) where
  ilabel : Nat
  olabel : Nat
  weight : W × List Nat
  nextstate : Nat
deriving DecidableEq

/-- The compact output FST under construction. -/
structure OFstC (W : Type) where
  numStates : Nat
  start : Option Nat
  arcs : List (Nat × CArc W)
  finals : List (Nat × (W × List Nat))
deriving DecidableEq

/-- `ofst->AddState()`: returns the fresh id and the grown FST. -/
def addStateE (o : OFst W) : Nat × OFst W :=
  (o.numStates, { o with numStates := o.numStates + 1 })

/-- `ofst->AddArc(s, a)`. -/
def addArcE (o : OFst W) (s : Nat) (a : OArc W) : OFst W :=
  { o with arcs := o.arcs ++ [(s, a)] }

/-- `ofst->SetFinal(s, w)`. -/
def setFinalE (o : OFst W) (s : Nat) (w : W) : OFst W :=
  { o with finals := o.finals ++ [(s, w)] }

/-- `ofst->DeleteStates()` on either output: the destination is reset. -/
def deleteStatesE (_ : OFst W) : OFst W := ⟨0, none, [], []⟩

/-- `ofst->DeleteStates()` for the compact output. -/
def deleteStatesC (_ : OFstC W) : OFstC W := ⟨0, none, [], []⟩

/-- The per-arc chain of the expanded `Output` for a genuine transition with
string `seq`: the loop `for (i = 0; i + 1 < seq.size(); i++)` creates a fresh
state per non-last label, then the last arc goes to the true destination.  The
`Bool` argument tracks `i == 0` (original `ilabel` and combined weight go on
the first arc). -/
def chainEmit (ops : WOps W) (w : W) (il ns : Nat) :
    Bool → Nat → List Nat → OFst W → OFst W
  | _, cur, [], o => addArcE o cur ⟨il, 0, w, ns⟩
  | first, cur, [x], o =>
    addArcE o cur ⟨if first then il else 0, x, if first then w else ops.one, ns⟩
  | first, cur, x :: y :: rest, o =>
    let p := addStateE o
    let o1 := addArcE p.2 cur
      ⟨if first then il else 0, x, if first then w else ops.one, p.1⟩
    chainEmit ops w il ns false p.1 (y :: rest) o1

/-- The per-marker chain of the expanded `Output` for a final marker with
string `seq`: one fresh state per label, epsilon input labels throughout, the
marker weight on the first arc, and `SetFinal` on the chain's last state
(`One`, or the marker weight when the string is empty). -/
def finalChainEmit (ops : WOps W) (w : W) :
    Bool → Nat → List Nat → OFst W → OFst W
  | first, cur, [], o => setFinalE o cur (if first then w else ops.one)
  | first, cur, x :: rest, o =>
    let p := addStateE o
    let o1 := addArcE p.2 cur ⟨0, x, if first then w else ops.one, p.1⟩
    finalChainEmit ops w false p.1 rest o1

/-- Emission of one `TempArc` by the expanded `Output`. -/
def emitTempArc (ops : WOps W) (s : Nat) (ta : TempArc W) (o : OFst W) : OFst W :=
  match ta.nextstate with
  | none => finalChainEmit ops ta.weight true s ta.string o
  | some ns => chainEmit ops ta.weight ta.ilabel ns true s ta.string o

/-- C++ `Output(MutableFst<Arc>*)` (expanded mode): delete the destination's
states; with no output states set no start and stop; otherwise add the base
states, set start 0 and emit every state's temp arcs as chains. -/
def outputExpanded (ops : WOps W) (output_arcs : List (List (TempArc W)))
    (o0 : OFst W) : OFst W :=
  let o := deleteStatesE o0
  if output_arcs.length = 0 then { o with start := none }
  else
    let o1 := { o with numStates := output_arcs.length, start := some 0 }
    (output_arcs.enum).foldl
      (fun o p => p.2.foldl (fun o ta => emitTempArc ops p.1 ta o) o) o1

/-- C++ `Output(MutableFst<CompactArc>*)` (compact mode): one output state per
internal state, arcs keep their `(weight, string)` pair, final markers become
final weights. -/
def outputCompact (output_arcs : List (List (TempArc W))) (o0 : OFstC W) :
    OFstC W :=
  let o := { deleteStatesC o0 with start := none }
  if output_arcs.length = 0 then o
  else
    let o1 := { o with numStates := output_arcs.length, start := some 0 }
    (output_arcs.enum).foldl
      (fun o p => p.2.foldl (fun o ta =>
        match ta.nextstate with
        | none => { o with finals := o.finals ++ [(p.1, (ta.weight, ta.string))] }
        | some ns => { o with arcs :=
            o.arcs ++ [(p.1, ⟨ta.ilabel, ta.ilabel, (ta.weight, ta.string), ns⟩)] })
        o) o1

namespace StringRepo

/-- The arena model of `LatticeStringRepository`: entry `k` is
`(parent handle, label)`; a handle is `none` (the `NULL` empty string) or an
arena index.  The C++ `unordered_set` of owned `Entry*` keyed by
`(parent, i)` becomes the arena searched positionally. -/
abbrev Repo := List (Option Nat × Nat)

/-- C++ `LatticeStringRepository::Successor(parent, i)`: find an existing
entry with this `(parent, label)` pair, else allocate and register one. -/
def successor (r : Repo) (p : Option Nat) (i : Nat) : Repo × Option Nat :=
  match r.findIdx? (fun e => e = (p, i)) with
  | some k => (r, some k)
  | none => (r ++ [(p, i)], some r.length)

/-- The `Successor` fold shared by `ConvertFromVector` and `Concatenate`,
starting from an arbitrary handle. -/
def internFrom (r : Repo) (h : Option Nat) : List Nat → Repo × Option Nat
  | [] => (r, h)
  | x :: xs =>
    let p := successor r h x
    internFrom p.1 p.2 xs

/-- C++ `LatticeStringRepository::ConvertFromVector`: successive `Successor`
calls starting from the `NULL` empty-string sentinel. -/
def convertFromVector (r : Repo) (v : List Nat) : Repo × Option Nat :=
  internFrom r none v

/-- C++ `LatticeStringRepository::ConvertToVector` (walk parent pointers and
reverse), by fuel-bounded recursion on the parent chain; the fuel
`r.length` suffices on any well-formed arena. -/
def toVecF (r : Repo) : Nat → Option Nat → List Nat
  | _, none => []
  | 0, some _ => []
  | fuel + 1, some k =>
    if k < r.length then
      toVecF r fuel (r.getD k (none, 0)).1 ++ [(r.getD k (none, 0)).2]
    else []

/-- The label sequence denoted by a handle. -/
def toVec (r : Repo) (h : Option Nat) : List Nat := toVecF r r.length h

/-- Parent pointers must point strictly downwards in the arena. -/
def parentOKb : (Option Nat × Nat) → Nat → Bool
  | (none, _), _ => true
  | (some p, _), k => decide (p < k)

/-- Well-formedness of the arena: no duplicate `(parent, label)` entries
(hash-consing) and downward parent pointers (acyclicity). -/
def wfRepo (r : Repo) : Prop :=
  r.Nodup ∧ ∀ k, k < r.length → parentOKb (r.getD k (none, 0)) k = true

/-- A handle valid for the arena. -/
def validHb (r : Repo) : Option Nat → Bool
  | none => true
  | some k => decide (k < r.length)

instance (r : Repo) : Decidable (wfRepo r) := by
  unfold wfRepo
  infer_instance

end StringRepo

/-- The weight interpretation used by concrete runs and witnesses: `Nat` with
`max`/`*` as `Plus`/`Times`, truncating division, identities 0 and 1, the
natural total order as `Compare` and exact equality as `ApproxEqual`. -/
def natOps : WOps Nat :=
  ⟨Nat.max, Nat.mul, (· / ·), 0, 1,
    fun a b => if a < b then -1 else if a = b then 0 else 1,
    fun a b => a == b⟩

/-- Divergence of `EpsilonClosure` on a given input: no amount of fuel makes
the work-list loop finish. -/
def epsClosureDiverges [DecidableEq W] (ops : WOps W) (fst : IFst W)
    (subset : List (Element W)) : Prop :=
  ∀ fuel, epsilonClosure ops fst fuel subset = .error .outOfFuel

/-- `p` is the longest common prefix of the sequences `ss`. -/
def isLCP (p : List Nat) (ss : List (List Nat)) : Prop :=
  (∀ s ∈ ss, p <+: s) ∧ ∀ q, (∀ s ∈ ss, q <+: s) → q <+: p

/-- The recorded arc list of an output state. -/
def arcsAt (st : DState W) (i : Nat) : List (TempArc W) :=
  st.outputArcs.getD i []

/-- The genuine transitions among a state's temp arcs (final markers excluded:
they materialize as final weights, not transitions). -/
def nonFinalArcs (l : List (TempArc W)) : List (TempArc W) :=
  l.filter fun ta => ta.nextstate.isSome

/-- Determinism of one state's arc list: pairwise distinct input labels among
its genuine transitions. -/
def arcIlabelsOK (l : List (TempArc W)) : Prop :=
  (nonFinalArcs l).Pairwise fun a b => a.ilabel ≠ b.ilabel

/-- Strictly increasing input labels along a state's recorded transitions
(final markers excluded); the shape in which `ProcessTransitions` appends
them. -/
def ilabelsIncreasing (l : List (TempArc W)) : Prop :=
  ((nonFinalArcs l).map fun ta => ta.ilabel).Pairwise (· < ·)

/-- Driver invariant tying `queue_` to `output_arcs_`: queued states are in
range, queued at most once, have no recorded arcs yet, and every state's
recorded transitions have pairwise distinct input labels. -/
def detInv (st : DState W) : Prop :=
  (∀ i ∈ st.queue, i < st.outputArcs.length) ∧
  st.queue.Nodup ∧
  (∀ i ∈ st.queue, arcsAt st i = []) ∧
  (∀ i, arcIlabelsOK (arcsAt st i))

/-- Input automaton for the abort scenario: state 0 starts, one arc with input
label 1, output label 5 and weight `One` reaches state 1, which is final with
weight `One` and has no outgoing arcs. -/
def acceptOneFst : IFst Nat :=
  ⟨some 0, (fun s => if s = 1 then 1 else 0),
    (fun s => if s = 0 then [⟨1, 5, 1, 1⟩] else []), false⟩

/-- Input automaton whose only state carries an epsilon-input, epsilon-output
self-loop of weight 2 (`≠ Zero`, and `Compare`-better each time around under
`natOps`). -/
def badLoopFst : IFst Nat :=
  ⟨some 0, (fun _ => 0), (fun s => if s = 0 then [⟨0, 0, 2, 0⟩] else []), false⟩

/-- Input automaton whose only state carries an epsilon-input, epsilon-output
self-loop of weight `One` (no net effect). -/
def oneLoopFst : IFst Nat :=
  ⟨some 0, (fun _ => 0), (fun s => if s = 0 then [⟨0, 0, 1, 0⟩] else []), false⟩

/-- Input automaton: a single non-final state with an input-label-1,
output-label-1, weight-`One` self-loop.  Its determinization completes. -/
def selfLoopFst : IFst Nat :=
  ⟨some 0, (fun _ => 0), (fun s => if s = 0 then [⟨1, 1, 1, 0⟩] else []), false⟩

/-- Input automaton with a final state (weight 5) and no arcs anywhere. -/
def bareFinalFst : IFst Nat :=
  ⟨some 0, (fun s => if s = 1 then 5 else 0), (fun _ => []), false⟩

/-- Input automaton with no start state (`Start() == kNoStateId`). -/
def noStartFst : IFst Nat := ⟨none, (fun _ => 0), (fun _ => []), false⟩

section PrefixLemmas

lemma commonPfx_pfx_left : ∀ a b : List Nat, commonPfx a b <+: a := by
  intro a
  induction a with
  | nil => intro b; cases b <;> simp [commonPfx]
  | cons x xs ih =>
    intro b
    cases b with
    | nil => simp [commonPfx]
    | cons y ys =>
      by_cases h : x = y
      · simpa [commonPfx, h, List.cons_prefix_cons] using ih ys
      · simp [commonPfx, h]

lemma commonPfx_pfx_right : ∀ a b : List Nat, commonPfx a b <+: b := by
  intro a
  induction a with
  | nil => intro b; cases b <;> simp [commonPfx]
  | cons x xs ih =>
    intro b
    cases b with
    | nil => simp [commonPfx]
    | cons y ys =>
      by_cases h : x = y
      · subst h; simpa [commonPfx, List.cons_prefix_cons] using ih ys
      · simp [commonPfx, h]

lemma commonPfx_greatest : ∀ q a b : List Nat, q <+: a → q <+: b →
    q <+: commonPfx a b := by
  intro q
  induction q with
  | nil => intro a b _ _; simp
  | cons z zs ih =>
    intro a b ha hb
    cases a with
    | nil => exact absurd (List.eq_nil_of_prefix_nil ha) (by simp)
    | cons x xs =>
      cases b with
      | nil => exact absurd (List.eq_nil_of_prefix_nil hb) (by simp)
      | cons y ys =>
        rw [List.cons_prefix_cons] at ha hb
        obtain ⟨hx, hxs⟩ := ha
        obtain ⟨hy, hys⟩ := hb
        subst hx
        rw [← hy]
        simp only [commonPfx, if_true, List.cons_prefix_cons]
        simp only [reduceCtorEq, ite_true, List.cons_prefix_cons, true_and, if_pos]
        simpa using ih xs ys hxs hys

lemma reduceToCommonPfx_pfx_left (a b : List Nat) : reduceToCommonPfx a b <+: a :=
  commonPfx_pfx_right (b.take a.length) a

lemma reduceToCommonPfx_pfx_right (a b : List Nat) : reduceToCommonPfx a b <+: b :=
  (commonPfx_pfx_left (b.take a.length) a).trans (List.take_prefix _ _)

lemma reduceToCommonPfx_greatest (q a b : List Nat) (ha : q <+: a) (hb : q <+: b) :
    q <+: reduceToCommonPfx a b := by
  refine commonPfx_greatest q _ _ ?_ ha
  exact List.prefix_take_iff.mpr ⟨hb, ha.length_le⟩

end PrefixLemmas

section NormalizeLemmas

lemma normAcc_split (ops : WOps W) :
    ∀ (rest : List (Element W)) (w0 : W) (p0 : List Nat),
    rest.foldl (fun (a : W × List Nat) e =>
        (ops.plus a.1 e.weight, reduceToCommonPfx e.string a.2)) (w0, p0)
    = (rest.foldl (fun a e => ops.plus a e.weight) w0,
       rest.foldl (fun p e => reduceToCommonPfx e.string p) p0) := by
  intro rest
  induction rest with
  | nil => intro w0 p0; rfl
  | cons e l ih => intro w0 p0; simp only [List.foldl_cons, ih]

lemma pfxFold_spec (rest : List (Element W)) : ∀ p0 : List Nat,
    (rest.foldl (fun p e => reduceToCommonPfx e.string p) p0 <+: p0) ∧
    (∀ e ∈ rest,
      rest.foldl (fun p e => reduceToCommonPfx e.string p) p0 <+: e.string) ∧
    (∀ q, q <+: p0 → (∀ e ∈ rest, q <+: e.string) →
      q <+: rest.foldl (fun p e => reduceToCommonPfx e.string p) p0) := by
  induction rest with
  | nil =>
    intro p0
    exact ⟨List.prefix_refl _, by simp, fun q hq _ => hq⟩
  | cons e l ih =>
    intro p0
    have h := ih (reduceToCommonPfx e.string p0)
    refine ⟨h.1.trans (reduceToCommonPfx_pfx_right _ _), ?_, ?_⟩
    · intro e2 he2
      rcases List.mem_cons.mp he2 with h2 | h2
      · subst h2; exact h.1.trans (reduceToCommonPfx_pfx_left _ _)
      · exact h.2.1 e2 h2
    · intro q hq hall
      refine h.2.2 q ?_ fun e2 he2 => hall e2 (List.mem_cons_of_mem _ he2)
      exact reduceToCommonPfx_greatest q _ _ (hall e (List.mem_cons_self _ _)) hq

lemma divideAll_eq (ops : WOps W) (w : W) (n : Nat) :
    ∀ l : List (Element W), (∀ e ∈ l, n ≤ e.string.length) →
    divideAll ops w n l =
      .ok (l.map fun e => ⟨e.state, e.string.drop n, ops.divide e.weight w⟩) := by
  intro l
  induction l with
  | nil => intro _; rfl
  | cons e rest ih =>
    intro h
    have he : n ≤ e.string.length := h e (List.mem_cons_self _ _)
    have hr := ih fun x hx => h x (List.mem_cons_of_mem _ hx)
    by_cases h0 : n = 0
    · subst h0
      simp [divideAll, removePfx, hr]
      rfl
    · have hlt : ¬ e.string.length < n := by omega
      simp [divideAll, removePfx, h0, hlt, hr]
      rfl

end NormalizeLemmas

/-- C4: on every subset it accepts, `NormalizeSubset` extracts the `Plus`-sum
of the weights and the longest common prefix of the strings, and rewrites each
element to its weight divided by the sum and its string with the prefix
removed. -/
theorem normalizeSubset_spec [DecidableEq W] (ops : WOps W)
    (elems elems' : List (Element W)) (pfx : List Nat) (w : W)
    (h : normalizeSubset ops elems = .ok (elems', pfx, w)) :
    w = wSum ops elems ∧ isLCP pfx (elems.map (·.string)) ∧
    elems' = elems.map fun e =>
      (⟨e.state, e.string.drop pfx.length, ops.divide e.weight w⟩ : Element W) := by
  cases elems with
  | nil => simp [normalizeSubset] at h
  | cons e0 rest =>
    have hb := pfxFold_spec rest e0.string
    simp only [normalizeSubset, normAcc_split] at h
    by_cases hz : rest.foldl (fun a e => ops.plus a e.weight) e0.weight = ops.zero
    · rw [if_pos hz] at h
      exact absurd h (by simp)
    · rw [if_neg hz] at h
      have hbound : ∀ e ∈ e0 :: rest,
          (rest.foldl (fun p e => reduceToCommonPfx e.string p) e0.string).length
            ≤ e.string.length := by
        intro e he
        rcases List.mem_cons.mp he with h1 | h1
        · subst h1; exact hb.1.length_le
        · exact (hb.2.1 e h1).length_le
      rw [divideAll_eq ops _ _ (e0 :: rest) hbound] at h
      have h2 : (Except.ok
          (((e0 :: rest).map fun e => (⟨e.state,
              e.string.drop (rest.foldl (fun p e => reduceToCommonPfx e.string p)
                e0.string).length,
              ops.divide e.weight (rest.foldl (fun a e => ops.plus a e.weight)
                e0.weight)⟩ : Element W)),
            rest.foldl (fun p e => reduceToCommonPfx e.string p) e0.string,
            rest.foldl (fun a e => ops.plus a e.weight) e0.weight) :
          Except DetErr _) = Except.ok (elems', pfx, w) := h
      simp only [Except.ok.injEq, Prod.mk.injEq] at h2
      obtain ⟨hl, hp, hw⟩ := h2
      refine ⟨hw.symm.trans (by rw [wSum]), ?_, ?_⟩
      · constructor
        · intro s hs
          rcases List.mem_map.mp hs with ⟨e, he, hes⟩
          subst hes
          rw [← hp]
          rcases List.mem_cons.mp he with h1 | h1
          · subst h1; exact hb.1
          · exact hb.2.1 e h1
        · intro q hq
          rw [← hp]
          refine hb.2.2 q (hq e0.string (by simp)) fun e he => ?_
          exact hq e.string (List.mem_map.mpr ⟨e, List.mem_cons_of_mem _ he, rfl⟩)
      · rw [← hl, ← hp, ← hw]

/-- Witness for `normalizeSubset_spec` at a concrete two-element subset. -/
theorem normalizeSubset_spec_witness :
    normalizeSubset natOps [⟨1, [5, 7], 2⟩, ⟨2, [5, 9], 3⟩]
      = .ok ([⟨1, [7], 0⟩, ⟨2, [9], 1⟩], [5], 3) ∧
    (3 = wSum natOps [⟨1, [5, 7], 2⟩, ⟨2, [5, 9], 3⟩] ∧
     isLCP [5] ([(⟨1, [5, 7], 2⟩ : Element Nat), ⟨2, [5, 9], 3⟩].map (·.string)) ∧
     [(⟨1, [7], 0⟩ : Element Nat), ⟨2, [9], 1⟩]
       = [(⟨1, [5, 7], 2⟩ : Element Nat), ⟨2, [5, 9], 3⟩].map fun e =>
          (⟨e.state, e.string.drop ([5] : List Nat).length,
            natOps.divide e.weight 3⟩ : Element Nat)) :=
  ⟨by decide, normalizeSubset_spec natOps _ _ _ _ (by decide)⟩

/-- C7: `NormalizeSubset` hits an assertion exactly on an empty subset or one
whose `Plus`-total weight is `Zero`, and returns normally on every subset
satisfying the precondition. -/
theorem normalizeSubset_precondition [DecidableEq W] (ops : WOps W)
    (elems : List (Element W)) :
    (normalizeSubset ops elems = .error .assertFail ↔
      elems = [] ∨ wSum ops elems = ops.zero) ∧
    ((∃ r, normalizeSubset ops elems = .ok r) ↔
      elems ≠ [] ∧ wSum ops elems ≠ ops.zero) := by
  cases elems with
  | nil => simp [normalizeSubset, wSum]
  | cons e0 rest =>
    have hb := pfxFold_spec rest e0.string
    by_cases hz : rest.foldl (fun a e => ops.plus a e.weight) e0.weight = ops.zero
    · constructor
      · simp [normalizeSubset, normAcc_split, hz, wSum]
      · simp [normalizeSubset, normAcc_split, hz, wSum]
    · have hbound : ∀ e ∈ e0 :: rest,
          (rest.foldl (fun p e => reduceToCommonPfx e.string p) e0.string).length
            ≤ e.string.length := by
        intro e he
        rcases List.mem_cons.mp he with h1 | h1
        · subst h1; exact hb.1.length_le
        · exact (hb.2.1 e h1).length_le
      have hok : normalizeSubset ops (e0 :: rest) = .ok
          (((e0 :: rest).map fun e => (⟨e.state,
              e.string.drop (rest.foldl (fun p e => reduceToCommonPfx e.string p)
                e0.string).length,
              ops.divide e.weight (rest.foldl (fun a e => ops.plus a e.weight)
                e0.weight)⟩ : Element W)),
            rest.foldl (fun p e => reduceToCommonPfx e.string p) e0.string,
            rest.foldl (fun a e => ops.plus a e.weight) e0.weight) := by
        simp only [normalizeSubset, normAcc_split]
        rw [if_neg hz]
        rw [divideAll_eq ops _ _ (e0 :: rest) hbound]
        rfl
      constructor
      · simp [hok, wSum, hz]
      · simp [hok, wSum, hz]

/-- C3 counterexample: a subset whose only element sits at an accepting state
(final weight 5) with no outgoing arcs is dropped by `ConvertToMinimal`,
because `IsOsymbolOrFinal` lacks the `return true` after its final-weight test
and therefore never reports a state as keepable for finality alone. -/
theorem convertToMinimal_drops_final_state :
    bareFinalFst.final 1 ≠ natOps.zero ∧
    convertToMinimal bareFinalFst [⟨1, [], 5⟩] = .ok [] := by decide

/-- C3 amended: on every non-empty subset `ConvertToMinimal` returns normally
and keeps exactly those elements whose input state has at least one outgoing
arc with a nonzero output label; neither finality of the state nor input
labels play any role. -/
theorem convertToMinimal_keeps_osymbol_states (fst : IFst W)
    (subset : List (Element W)) (h : subset ≠ []) :
    ∃ res, convertToMinimal fst subset = .ok res ∧
      ∀ e, e ∈ res ↔ e ∈ subset ∧ ∃ a ∈ fst.arcsOf e.state, a.olabel ≠ 0 := by
  cases subset with
  | nil => exact absurd rfl h
  | cons x rest =>
    refine ⟨_, rfl, ?_⟩
    intro e
    simp [List.mem_filter, isOsymbolOrFinal, List.any_eq_true]

/-- Witness for `convertToMinimal_keeps_osymbol_states` at a concrete
subset. -/
theorem convertToMinimal_keeps_osymbol_states_witness :
    ([(⟨0, [], 1⟩ : Element Nat)] ≠ []) ∧
    (∃ res, convertToMinimal selfLoopFst [⟨0, [], 1⟩] = .ok res ∧
      ∀ e, e ∈ res ↔ e ∈ [(⟨0, [], 1⟩ : Element Nat)] ∧
        ∃ a ∈ selfLoopFst.arcsOf e.state, a.olabel ≠ 0) :=
  ⟨by decide, convertToMinimal_keeps_osymbol_states selfLoopFst _ (by decide)⟩

/-- C5 (code-bug evaluation): `ProcessFinal`'s scan compares every candidate,
including the first, against the current `(final_weight, final_string)` pair,
and `final_weight` is declared without an initializer.  With indeterminate
initial value 7, a subset whose only element is at a state of final weight 5
yields no final marker; with initial value `Zero` the very same subset yields
the marker `(5, ε)`.  The claim's "records a marker iff some element has
non-`Zero` final weight" therefore fails on the code as written. -/
theorem processFinal_depends_on_uninitialized_weight :
    bareFinalFst.final 1 ≠ natOps.zero ∧
    processFinalScan natOps bareFinalFst 7 [⟨1, [], 5⟩] = none ∧
    processFinalScan natOps bareFinalFst 0 [⟨1, [], 5⟩] = some (5, []) := by decide

lemma badLoop_closureLoop_diverges :
    ∀ (fuel c : Nat), 0 < c →
      closureLoop natOps badLoopFst fuel [⟨0, [], c⟩] [⟨0, [], c⟩]
        = .error .outOfFuel := by
  intro fuel
  induction fuel with
  | zero => intro c hc; rfl
  | succ f ih =>
    intro c hc
    have h1 : ¬ c * 2 < c := by omega
    have h2 : ¬ c * 2 = c := by omega
    have hstep : closureLoop natOps badLoopFst (f + 1) [⟨0, [], c⟩] [⟨0, [], c⟩]
        = closureLoop natOps badLoopFst f [⟨0, [], c * 2⟩] [⟨0, [], c * 2⟩] := by
      simp [closureLoop, epsStep, epsArcs, badLoopFst, closureInsert, cmpWS,
        natOps, h1, h2]
    rw [hstep]
    exact ih (c * 2) (by omega)

/-- C6 counterexample: the input has an epsilon-input cycle (a self-loop on
state 0) of non-zero weight, yet `EpsilonClosure` diverges on it -- the
traversal `Compare`-improves the element's weight every time around, so the
improved element is re-queued forever. -/
theorem epsilonClosure_diverges_on_nonzero_cycle :
    (∃ a ∈ badLoopFst.arcsOf 0, a.ilabel = 0 ∧ a.weight ≠ natOps.zero) ∧
    epsClosureDiverges natOps badLoopFst [⟨0, [], 1⟩] :=
  ⟨by decide, fun fuel => badLoop_closureLoop_diverges fuel 1 (by omega)⟩

/-- C6 amended: when the epsilon cycle has no net effect -- here a self-loop
of weight `One` on state 0, so the recombined element never
`Compare`-improves -- `EpsilonClosure` terminates and the resulting closed
subset contains the looping state exactly once. -/
theorem epsilonClosure_terminates_on_one_cycle :
    epsilonClosure natOps oneLoopFst 2 [⟨0, [], 1⟩] = .ok [⟨0, [], 1⟩] ∧
    ([(⟨0, [], 1⟩ : Element Nat)].countP fun e => decide (e.state = 0)) = 1 := by
  decide

section DeterminismInvariant

lemma except_bind_ok {E A B : Type} {x : Except E A} {f : A → Except E B} {r : B}
    (h : x >>= f = .ok r) : ∃ a, x = .ok a ∧ f a = .ok r := by
  cases x with
  | ok a => exact ⟨a, rfl, h⟩
  | error e =>
    exact absurd h (by simp [Bind.bind, Except.bind])

lemma arcsAt_appendArc_same (st : DState W) (s : Nat) (ta : TempArc W)
    (h : s < st.outputArcs.length) :
    arcsAt (appendArc st s ta) s = arcsAt st s ++ [ta] := by
  simp [arcsAt, appendArc, List.getD_eq_getElem?_getD, List.getElem?_set_self h]

lemma arcsAt_appendArc_other (st : DState W) (s i : Nat) (ta : TempArc W)
    (h : s ≠ i) : arcsAt (appendArc st s ta) i = arcsAt st i := by
  simp [arcsAt, appendArc, List.getD_eq_getElem?_getD, List.getElem?_set_ne h]

lemma arcsAt_append_lt (st : DState W) (ext : List (List (TempArc W))) (i : Nat)
    (h : i < st.outputArcs.length) :
    ({ st with outputArcs := st.outputArcs ++ ext } : DState W).outputArcs.getD i []
      = arcsAt st i := by
  simp [arcsAt, List.getD_eq_getElem?_getD, List.getElem?_append, h]

lemma minimalToStateId_effect [DecidableEq W] (ops : WOps W) (st : DState W)
    (sub : List (Element W)) :
    ((minimalToStateId ops st sub).1.outputArcs = st.outputArcs ∧
      (minimalToStateId ops st sub).1.queue = st.queue) ∨
    ((minimalToStateId ops st sub).1.outputArcs = st.outputArcs ++ [[]] ∧
      (minimalToStateId ops st sub).1.queue = st.outputArcs.length :: st.queue) := by
  unfold minimalToStateId
  cases findSubset ops st.minimalHash sub <;> simp

lemma initialToStateId_effect [DecidableEq W] (ops : WOps W) (fst : IFst W)
    (fuel : Nat) (st : DState W) (sub : List (Element W))
    (r : DState W × Nat × W × List Nat)
    (h : initialToStateId ops fst fuel st sub = .ok r) :
    (r.1.outputArcs = st.outputArcs ∧ r.1.queue = st.queue) ∨
    (r.1.outputArcs = st.outputArcs ++ [[]] ∧
      r.1.queue = st.outputArcs.length :: st.queue) := by
  unfold initialToStateId at h
  cases hf : findSubset ops st.initialHash sub with
  | some elem =>
    rw [hf] at h
    have h2 : r = (st, elem.state, elem.weight, elem.string) := by
      cases h; rfl
    subst h2
    exact Or.inl ⟨rfl, rfl⟩
  | none =>
    rw [hf] at h
    obtain ⟨s1, _, h⟩ := except_bind_ok h
    obtain ⟨s2, _, h⟩ := except_bind_ok h
    obtain ⟨nr, _, h⟩ := except_bind_ok h
    have h2 : r = ({ (minimalToStateId ops st nr.1).1 with
        initialHash := (sub, ⟨(minimalToStateId ops st nr.1).2, nr.2.1, nr.2.2⟩)
          :: (minimalToStateId ops st nr.1).1.initialHash },
        (minimalToStateId ops st nr.1).2, nr.2.2, nr.2.1) := by
      cases h; rfl
    subst h2
    rcases minimalToStateId_effect ops st nr.1 with ⟨h1, h2⟩ | ⟨h1, h2⟩
    · exact Or.inl ⟨h1, h2⟩
    · exact Or.inr ⟨h1, h2⟩

end DeterminismInvariant

section SortGroupLemmas

lemma insertPair_mem (x y : Nat × Element W) :
    ∀ l, y ∈ insertPair x l ↔ y = x ∨ y ∈ l := by
  intro l
  induction l with
  | nil => simp [insertPair]
  | cons z zs ih =>
    by_cases h : pairLE x z = true
    · simp [insertPair, h]
    · simp [insertPair, h, ih]
      tauto

lemma pairLE_total_first (x z : Nat × Element W) (h : ¬ pairLE x z = true) :
    z.1 ≤ x.1 := by
  simp only [pairLE, Bool.or_eq_true, Bool.and_eq_true, decide_eq_true_eq] at h
  omega

lemma pairLE_first (x z : Nat × Element W) (h : pairLE x z = true) :
    x.1 ≤ z.1 := by
  simp only [pairLE, Bool.or_eq_true, Bool.and_eq_true, decide_eq_true_eq] at h
  omega

lemma insertPair_pairwise (x : Nat × Element W) :
    ∀ l, l.Pairwise (fun p q => p.1 ≤ q.1) →
      (insertPair x l).Pairwise (fun (p q : Nat × Element W) => p.1 ≤ q.1) := by
  intro l
  induction l with
  | nil => intro _; simp [insertPair]
  | cons z zs ih =>
    intro hp
    rw [List.pairwise_cons] at hp
    by_cases h : pairLE x z = true
    · simp only [insertPair, if_pos h]
      rw [List.pairwise_cons]
      constructor
      · intro q hq
        rcases List.mem_cons.mp hq with hqz | hq2
        · rw [hqz]; exact pairLE_first x z h
        · exact le_trans (pairLE_first x z h) (hp.1 q hq2)
      · exact List.pairwise_cons.mpr hp
    · simp only [insertPair, if_neg h]
      rw [List.pairwise_cons]
      refine ⟨?_, ih hp.2⟩
      intro q hq
      rcases (insertPair_mem x q zs).mp hq with hqx | hq2
      · rw [hqx]; exact pairLE_total_first x z h
      · exact hp.1 q hq2

lemma sortPairs_pairwise (l : List (Nat × Element W)) :
    (sortPairs l).Pairwise (fun p q => p.1 ≤ q.1) := by
  induction l with
  | nil => simp [sortPairs]
  | cons x xs ih => exact insertPair_pairwise x _ ih

lemma groupPairsAux_facts :
    ∀ (rest : List (Nat × Element W)) (l : Nat) (acc : List (Element W)),
    (∀ p ∈ rest, l ≤ p.1) → rest.Pairwise (fun p q => p.1 ≤ q.1) →
    ((groupPairsAux rest l acc).map Prod.fst).Pairwise (· < ·) ∧
    (∀ g ∈ groupPairsAux rest l acc, l ≤ g.1) := by
  intro rest
  induction rest with
  | nil => intro l acc _ _; simp [groupPairsAux]
  | cons p ps ih =>
    intro l acc hge hpw
    rw [List.pairwise_cons] at hpw
    obtain ⟨p1, p2⟩ := p
    by_cases h : p1 = l
    · subst h
      simp only [groupPairsAux, if_pos rfl]
      exact ih p1 (p2 :: acc) (fun q hq => hge q (List.mem_cons_of_mem _ hq)) hpw.2
    · have hlt : l < p1 := by
        have := hge (p1, p2) (List.mem_cons_self _ _)
        omega
      simp only [groupPairsAux, if_neg h]
      have hrec := ih p1 [p2] (fun q hq => hpw.1 q hq) hpw.2
      constructor
      · rw [List.map_cons, List.pairwise_cons]
        refine ⟨?_, hrec.1⟩
        intro a ha
        rcases List.mem_map.mp ha with ⟨g, hg, rfl⟩
        exact lt_of_lt_of_le hlt (hrec.2 g hg)
      · intro g hg
        rcases List.mem_cons.mp hg with rfl | hg2
        · exact le_refl _
        · exact le_trans (le_of_lt hlt) (hrec.2 g hg2)

lemma groupPairs_labels (l : List (Nat × Element W))
    (h : l.Pairwise (fun p q => p.1 ≤ q.1)) :
    ((groupPairs l).map Prod.fst).Pairwise (· < ·) := by
  cases l with
  | nil => simp [groupPairs]
  | cons p ps =>
    rw [List.pairwise_cons] at h
    obtain ⟨p1, p2⟩ := p
    exact (groupPairsAux_facts ps p1 [p2] (fun q hq => h.1 q hq) h.2).1

end SortGroupLemmas

section ProcessEffects

lemma processTransition_effect [DecidableEq W] (ops : WOps W) (fst : IFst W)
    (fuel : Nat) (st st' : DState W) (s l : Nat) (sub : List (Element W))
    (hs : s < st.outputArcs.length)
    (h : processTransition ops fst fuel st s l sub = .ok st') :
    ∃ (ta : TempArc W) (ext : List (List (TempArc W))) (qext : List Nat),
      ta.ilabel = l ∧ ta.nextstate.isSome = true ∧
      ((ext = [] ∧ qext = []) ∨ (ext = [[]] ∧ qext = [st.outputArcs.length])) ∧
      st'.outputArcs = (st.outputArcs ++ ext).set s (arcsAt st s ++ [ta]) ∧
      st'.queue = qext ++ st.queue := by
  unfold processTransition at h
  obtain ⟨nr, _, h⟩ := except_bind_ok h
  obtain ⟨q, hq, h⟩ := except_bind_ok h
  have h2 : st' = appendArc q.1 s
      ⟨l, nr.2.1 ++ q.2.2.2, some q.2.1, ops.times nr.2.2 q.2.2.1⟩ := by
    cases h; rfl
  subst h2
  rcases initialToStateId_effect ops fst fuel st nr.1 q hq with ⟨h1, h2⟩ | ⟨h1, h2⟩
  · refine ⟨⟨l, nr.2.1 ++ q.2.2.2, some q.2.1, ops.times nr.2.2 q.2.2.1⟩,
      [], [], rfl, rfl, Or.inl ⟨rfl, rfl⟩, ?_, ?_⟩
    · simp [appendArc, h1, arcsAt]
    · simpa [appendArc] using h2
  · refine ⟨⟨l, nr.2.1 ++ q.2.2.2, some q.2.1, ops.times nr.2.2 q.2.2.1⟩,
      [[]], [st.outputArcs.length], rfl, rfl, Or.inr ⟨rfl, rfl⟩, ?_, ?_⟩
    · simp only [appendArc, h1]
      congr 1
      simp [arcsAt, List.getD_eq_getElem?_getD, List.getElem?_append, hs]
    · simpa [appendArc] using h2

lemma processFinal_effect [DecidableEq W] (ops : WOps W) (fst : IFst W) (g : W)
    (st : DState W) (s : Nat) (hs : s < st.outputArcs.length) :
    (processFinal ops fst g st s).queue = st.queue ∧
    (processFinal ops fst g st s).outputArcs.length = st.outputArcs.length ∧
    nonFinalArcs (arcsAt (processFinal ops fst g st s) s)
      = nonFinalArcs (arcsAt st s) ∧
    (∀ i, i ≠ s → arcsAt (processFinal ops fst g st s) i = arcsAt st i) ∧
    (processFinal ops fst g st s).outputStates = st.outputStates := by
  unfold processFinal
  cases processFinalScan ops fst g (st.outputStates.getD s []) with
  | none => exact ⟨rfl, rfl, rfl, fun _ _ => rfl, rfl⟩
  | some p =>
    refine ⟨rfl, by simp [appendArc], ?_, ?_, rfl⟩
    · rw [arcsAt_appendArc_same st s _ hs]
      simp [nonFinalArcs, List.filter_append]
    · intro i hi
      exact arcsAt_appendArc_other st s i _ fun hh => hi hh.symm

end ProcessEffects

section RunGroupsInvariant

lemma arcIlabelsOK_nil : arcIlabelsOK ([] : List (TempArc W)) := by
  simp [arcIlabelsOK, nonFinalArcs]

lemma increasing_ok (l : List (TempArc W)) (h : ilabelsIncreasing l) :
    arcIlabelsOK l := by
  unfold ilabelsIncreasing at h
  unfold arcIlabelsOK
  exact (List.pairwise_map.mp h).imp fun hab => Nat.ne_of_lt hab

lemma nonFinalArcs_append_some (l : List (TempArc W)) (ta : TempArc W)
    (h : ta.nextstate.isSome = true) :
    nonFinalArcs (l ++ [ta]) = nonFinalArcs l ++ [ta] := by
  simp [nonFinalArcs, List.filter_append, h]

lemma runGroups_inv [DecidableEq W] (ops : WOps W) (fst : IFst W) (fuel s : Nat) :
    ∀ (groups : List (Nat × List (Element W))) (st st' : DState W),
    runGroups ops fst fuel s st groups = .ok st' →
    detInv st → s < st.outputArcs.length → s ∉ st.queue →
    ilabelsIncreasing (arcsAt st s) →
    (∀ ta ∈ nonFinalArcs (arcsAt st s), ∀ g ∈ groups, ta.ilabel < g.1) →
    (groups.map Prod.fst).Pairwise (· < ·) →
    detInv st' := by
  intro groups
  induction groups with
  | nil =>
    intro st st' h hInv _ _ _ _ _
    cases h
    exact hInv
  | cons g rest ih =>
    obtain ⟨l, sub⟩ := g
    intro st st' h hInv hs hq hinc hbound hlab
    rw [runGroups] at h
    obtain ⟨stm, hpt, hrg⟩ := except_bind_ok h
    obtain ⟨ta, ext, qext, hta_l, hta_some, hbranch, harcs, hqueue⟩ :=
      processTransition_effect ops fst fuel st stm s l sub hs hpt
    have hlen : stm.outputArcs.length = st.outputArcs.length + ext.length := by
      rw [harcs]; simp
    have hsn : s < (st.outputArcs ++ ext).length := by simp; omega
    have harc_s : arcsAt stm s = arcsAt st s ++ [ta] := by
      simp [arcsAt, harcs, List.getD_eq_getElem?_getD, List.getElem?_set_self hsn]
    have harc_other : ∀ i, i ≠ s → i < st.outputArcs.length →
        arcsAt stm i = arcsAt st i := by
      intro i hi hilt
      simp [arcsAt, harcs, List.getD_eq_getElem?_getD,
        List.getElem?_set_ne (Ne.symm hi), List.getElem?_append, hilt]
    have harc_high : ∀ i, st.outputArcs.length ≤ i → i ≠ s → arcsAt stm i = [] := by
      intro i hni hi
      rcases hbranch with ⟨he, _⟩ | ⟨he, _⟩
      · subst he
        simp [arcsAt, harcs, List.getD_eq_getElem?_getD,
          List.getElem?_set_ne (Ne.symm hi), List.getElem?_eq_none hni]
      · subst he
        by_cases h0 : i = st.outputArcs.length
        · subst h0
          simp [arcsAt, harcs, List.getD_eq_getElem?_getD,
            List.getElem?_set_ne (Ne.symm hi),
            List.getElem?_append_right hni]
        · have : (st.outputArcs ++ [[]]).length ≤ i := by simp; omega
          simp [arcsAt, harcs, List.getD_eq_getElem?_getD,
            List.getElem?_set_ne (Ne.symm hi), List.getElem?_eq_none this]
    have harc_cases : ∀ i, i ≠ s →
        arcsAt stm i = arcsAt st i ∨ arcsAt stm i = [] := by
      intro i hi
      by_cases hilt : i < st.outputArcs.length
      · exact Or.inl (harc_other i hi hilt)
      · exact Or.inr (harc_high i (by omega) hi)
    have hqmem : ∀ i ∈ stm.queue, i ∈ qext ∨ i ∈ st.queue := by
      intro i hi
      rw [hqueue] at hi
      exact List.mem_append.mp hi
    have hq_ne_s : ∀ i ∈ qext, i ≠ s := by
      intro i hi
      rcases hbranch with ⟨_, hqe⟩ | ⟨_, hqe⟩
      · subst hqe; simp at hi
      · subst hqe
        simp at hi
        omega
    have hinc_new : ilabelsIncreasing (arcsAt stm s) := by
      unfold ilabelsIncreasing
      rw [harc_s, nonFinalArcs_append_some _ _ hta_some, List.map_append]
      rw [List.pairwise_append]
      refine ⟨hinc, by simp, ?_⟩
      intro a ha b hb
      rcases List.mem_map.mp ha with ⟨ta', hta', rfl⟩
      have hbl : b = ta.ilabel := by simpa using hb
      rw [hbl, hta_l]
      exact hbound ta' hta' (l, sub) (List.mem_cons_self _ _)
    have hInv_m : detInv stm := by
      refine ⟨?_, ?_, ?_, ?_⟩
      · intro i hi
        rcases hqmem i hi with h1 | h1
        · rcases hbranch with ⟨_, hqe⟩ | ⟨he, hqe⟩
          · subst hqe; simp at h1
          · subst hqe; subst he
            simp at h1
            simp only [List.length_singleton] at hlen
            omega
        · have := hInv.1 i h1
          omega
      · rw [hqueue]
        rcases hbranch with ⟨_, hqe⟩ | ⟨_, hqe⟩
        · subst hqe; simpa using hInv.2.1
        · subst hqe
          simp only [List.singleton_append, List.nodup_cons]
          refine ⟨fun hmem => ?_, hInv.2.1⟩
          have := hInv.1 _ hmem
          omega
      · intro i hi
        rcases hqmem i hi with h1 | h1
        · rcases hbranch with ⟨_, hqe⟩ | ⟨he, hqe⟩
          · subst hqe; simp at h1
          · subst hqe; subst he
            simp at h1
            subst h1
            exact harc_high _ (le_refl _) (hq_ne_s _ (by simp))
        · have hne : i ≠ s := fun hh => hq (hh ▸ h1)
          rcases harc_cases i hne with h2 | h2
          · rw [h2]; exact hInv.2.2.1 i h1
          · exact h2
      · intro i
        by_cases hi : i = s
        · subst hi
          exact increasing_ok _ hinc_new
        · rcases harc_cases i hi with h2 | h2
          · rw [h2]; exact hInv.2.2.2 i
          · rw [h2]; exact arcIlabelsOK_nil
    have hlab_tail : (rest.map Prod.fst).Pairwise (· < ·) := by
      rw [List.map_cons, List.pairwise_cons] at hlab
      exact hlab.2
    have hlab_head : ∀ g ∈ rest, l < g.1 := by
      rw [List.map_cons, List.pairwise_cons] at hlab
      intro g hg
      exact hlab.1 g.1 (List.mem_map.mpr ⟨g, hg, rfl⟩)
    have hbound_new : ∀ ta' ∈ nonFinalArcs (arcsAt stm s), ∀ g ∈ rest,
        ta'.ilabel < g.1 := by
      intro ta' hta' g hg
      rw [harc_s, nonFinalArcs_append_some _ _ hta_some] at hta'
      rcases List.mem_append.mp hta' with h1 | h1
      · exact hbound ta' h1 g (List.mem_cons_of_mem _ hg)
      · have : ta' = ta := by simpa using h1
        rw [this, hta_l]
        exact hlab_head g hg
    refine ih stm st' hrg hInv_m ?_ ?_ hinc_new hbound_new hlab_tail
    · omega
    · intro hmem
      rcases hqmem s hmem with h1 | h1
      · exact hq_ne_s s h1 rfl
      · exact hq h1

end RunGroupsInvariant

section DriverInvariant

lemma processState_inv [DecidableEq W] (ops : WOps W) (fst : IFst W)
    (fuel : Nat) (g : W) (st st' : DState W) (s : Nat)
    (h : processState ops fst fuel g st s = .ok st')
    (hInv : detInv st) (hs : s < st.outputArcs.length) (hq : s ∉ st.queue)
    (hempty : arcsAt st s = []) : detInv st' := by
  unfold processState processTransitions at h
  obtain ⟨hq1, hlen1, hnf1, hother1, hos1⟩ := processFinal_effect ops fst g st s hs
  have hInv1 : detInv (processFinal ops fst g st s) := by
    refine ⟨?_, ?_, ?_, ?_⟩
    · intro i hi; rw [hq1] at hi; have := hInv.1 i hi; omega
    · rw [hq1]; exact hInv.2.1
    · intro i hi
      rw [hq1] at hi
      have hne : i ≠ s := fun hh => hq (hh ▸ hi)
      rw [hother1 i hne]; exact hInv.2.2.1 i hi
    · intro i
      by_cases hi : i = s
      · subst hi
        unfold arcIlabelsOK
        rw [hnf1, hempty]
        simp [nonFinalArcs]
      · rw [hother1 i hi]; exact hInv.2.2.2 i
  have hinc1 : ilabelsIncreasing (arcsAt (processFinal ops fst g st s) s) := by
    unfold ilabelsIncreasing
    rw [hnf1, hempty]
    simp [nonFinalArcs]
  have hbound1 : ∀ ta ∈ nonFinalArcs (arcsAt (processFinal ops fst g st s) s),
      ∀ g2 ∈ groupPairs (sortPairs (transitionElems ops fst
        ((processFinal ops fst g st s).outputStates.getD s []))),
      ta.ilabel < g2.1 := by
    intro ta hta
    rw [hnf1, hempty] at hta
    simp [nonFinalArcs] at hta
  exact runGroups_inv ops fst fuel s _ (processFinal ops fst g st s) st' h hInv1
    (by omega) (by rw [hq1]; exact hq) hinc1 hbound1
    (groupPairs_labels _ (sortPairs_pairwise _))

lemma detLoop_inv [DecidableEq W] (ops : WOps W) (fst : IFst W) (g : W) :
    ∀ (fuel : Nat) (st st' : DState W),
    detLoop ops fst g fuel st = .ok st' → detInv st → detInv st' := by
  intro fuel
  induction fuel with
  | zero =>
    intro st st' h hInv
    rw [detLoop] at h
    cases hqe : st.queue with
    | nil =>
      rw [hqe] at h
      cases h
      exact hInv
    | cons s rest =>
      rw [hqe] at h
      simp at h
  | succ f ih =>
    intro st st' h hInv
    rw [detLoop] at h
    cases hqe : st.queue with
    | nil =>
      rw [hqe] at h
      cases h
      exact hInv
    | cons s rest =>
      rw [hqe] at h
      obtain ⟨st2, hps, hloop⟩ := except_bind_ok h
      have hsq : s ∈ st.queue := by rw [hqe]; exact List.mem_cons_self _ _
      have hs : s < st.outputArcs.length := hInv.1 s hsq
      have hnodup := hInv.2.1
      rw [hqe] at hnodup
      have hrestInv : detInv ({ st with queue := rest } : DState W) := by
        refine ⟨?_, ?_, ?_, hInv.2.2.2⟩
        · intro i hi
          exact hInv.1 i (by rw [hqe]; exact List.mem_cons_of_mem _ hi)
        · exact (List.nodup_cons.mp hnodup).2
        · intro i hi
          exact hInv.2.2.1 i (by rw [hqe]; exact List.mem_cons_of_mem _ hi)
      have hnotin : s ∉ rest := (List.nodup_cons.mp hnodup).1
      have hempty : arcsAt ({ st with queue := rest } : DState W) s = [] :=
        hInv.2.2.1 s hsq
      exact ih st2 st' hloop
        (processState_inv ops fst f g _ st2 s hps hrestInv hs hnotin hempty)

lemma detInit_inv [DecidableEq W] (ops : WOps W) (fst : IFst W) (fuel : Nat)
    (st : DState W) (h : detInit ops fst fuel = .ok st) : detInv st := by
  unfold detInit at h
  cases hstart : fst.start with
  | none =>
    rw [hstart] at h
    cases h
    refine ⟨by simp, by simp, by simp, ?_⟩
    intro i
    cases i <;> exact arcIlabelsOK_nil
  | some s0 =>
    rw [hstart] at h
    obtain ⟨s1, _, h⟩ := except_bind_ok h
    obtain ⟨s2, _, h⟩ := except_bind_ok h
    cases h
    refine ⟨?_, ?_, ?_, ?_⟩
    · intro i hi
      simp at hi
      subst hi
      simp
    · simp
    · intro i hi
      simp at hi
      subst hi
      rfl
    · intro i
      match i with
      | 0 => exact arcIlabelsOK_nil
      | Nat.succ n => exact arcIlabelsOK_nil

end DriverInvariant

/-- C2: whenever determinization completes, every output state's recorded
genuine transitions (`kNoStateId` final markers excluded, since they
materialize as final weights) carry pairwise distinct input labels -- for
every weight interpretation, every input automaton, every value of the
uninitialized `ProcessFinal` weight and every fuel bound.  Each output state
is queued exactly once when created and expanded exactly once, and
`ProcessTransitions` appends one arc per `ilabel` group of its sorted
candidate list. -/
theorem determinize_deterministic [DecidableEq W] (ops : WOps W) (fst : IFst W)
    (g : W) (fuel : Nat) (st : DState W)
    (h : latticeDeterminize ops fst g fuel = .ok st) :
    ∀ i, arcIlabelsOK (arcsAt st i) := by
  unfold latticeDeterminize at h
  obtain ⟨st0, hinit, hloop⟩ := except_bind_ok h
  exact (detLoop_inv ops fst g fuel st0 st hloop
    (detInit_inv ops fst fuel st0 hinit)).2.2.2

/-- Witness for `determinize_deterministic`: the completed run on
`selfLoopFst`. -/
theorem determinize_deterministic_witness :
    latticeDeterminize natOps selfLoopFst 0 2 = .ok
      (⟨[[⟨0, [], 1⟩]], [[⟨1, [1], some 0, 1⟩]], [([⟨0, [], 1⟩], 0)],
        [([⟨0, [], 1⟩], ⟨0, [], 1⟩)], []⟩ : DState Nat) ∧
    ∀ i, arcIlabelsOK (arcsAt (⟨[[⟨0, [], 1⟩]], [[⟨1, [1], some 0, 1⟩]],
      [([⟨0, [], 1⟩], 0)], [([⟨0, [], 1⟩], ⟨0, [], 1⟩)], []⟩ : DState Nat) i) :=
  ⟨by decide, determinize_deterministic natOps selfLoopFst 0 2 _ (by decide)⟩

/-- C1 (code-bug evaluation): `acceptOneFst` accepts the input-label sequence
`[1]` -- the arc `0 → 1` has input label 1 and non-`Zero` weight and state 1
is final with non-`Zero` weight -- yet determinization aborts with an
assertion failure for every value of the uninitialized `ProcessFinal` weight.
The missing `return true` in `IsOsymbolOrFinal` makes `ConvertToMinimal`
prune the bare final state 1 from the subset reached under label 1, and
`NormalizeSubset` then asserts on the resulting empty subset, so no output
automaton exists whose path weight could match the input's `Plus`-sum. -/
theorem determinize_aborts_on_accepted_sequence :
    (acceptOneFst.final 1 ≠ natOps.zero ∧
     ∃ a ∈ acceptOneFst.arcsOf 0, a.ilabel = 1 ∧ a.weight ≠ natOps.zero ∧
       a.nextstate = 1) ∧
    ∀ g : Nat, latticeDeterminize natOps acceptOneFst g 10
      = .error .assertFail :=
  ⟨by decide, fun _ => rfl⟩

/-- C10: with no start state `Initialize` creates no output states, the
driver loop exits immediately, and both `Output` modes first delete the
destination's pre-existing states and then deliver a zero-state automaton
with no start state. -/
theorem determinize_empty_input [DecidableEq W] (ops : WOps W) (fst : IFst W)
    (g : W) (fuel : Nat) (oc : OFstC W) (oe : OFst W) (h : fst.start = none) :
    latticeDeterminize ops fst g fuel = .ok (⟨[], [], [], [], []⟩ : DState W) ∧
    outputCompact ([] : List (List (TempArc W))) oc = ⟨0, none, [], []⟩ ∧
    outputExpanded ops ([] : List (List (TempArc W))) oe = ⟨0, none, [], []⟩ := by
  refine ⟨?_, rfl, rfl⟩
  unfold latticeDeterminize detInit
  rw [h]
  show detLoop ops fst g fuel (⟨[], [], [], [], []⟩ : DState W) = .ok _
  rw [detLoop]

/-- Witness for `determinize_empty_input` on a start-less automaton and
non-empty destination FSTs. -/
theorem determinize_empty_input_witness :
    noStartFst.start = none ∧
    (latticeDeterminize natOps noStartFst 0 3
        = .ok (⟨[], [], [], [], []⟩ : DState Nat) ∧
     outputCompact ([] : List (List (TempArc Nat)))
        ⟨2, some 1, [], [(1, (4, [7]))]⟩ = ⟨0, none, [], []⟩ ∧
     outputExpanded natOps ([] : List (List (TempArc Nat)))
        ⟨3, some 2, [(0, ⟨1, 2, 3, 1⟩)], [(2, 9)]⟩ = ⟨0, none, [], []⟩) :=
  ⟨rfl, determinize_empty_input natOps noStartFst 0 3 _ _ rfl⟩



section ChainLemmas

lemma cons_map_range {A : Type} (L : Nat) (f g : Nat → A) (a : A)
    (h0 : f 0 = a) (hs : ∀ k, k < L → f (k + 1) = g k) :
    a :: (List.range L).map g = (List.range (L + 1)).map f := by
  rw [List.range_succ_eq_map, List.map_cons, List.map_map, h0]
  congr 1
  refine (List.map_congr_left ?_).symm
  intro k hk
  rw [List.mem_range] at hk
  exact hs k hk

lemma finalChainEmit_false_spec (ops : WOps W) (w : W) :
    ∀ (seq : List Nat) (cur : Nat) (o : OFst W),
    finalChainEmit ops w false cur seq o = { o with
      numStates := o.numStates + seq.length,
      arcs := o.arcs ++ (List.range seq.length).map fun k =>
        (if k = 0 then cur else o.numStates + k - 1,
         (⟨0, seq.getD k 0, ops.one, o.numStates + k⟩ : OArc W)),
      finals := o.finals ++
        [(if seq.length = 0 then cur else o.numStates + seq.length - 1,
          ops.one)] } := by
  intro seq
  induction seq with
  | nil =>
    intro cur o
    simp [finalChainEmit, setFinalE]
  | cons x rest ih =>
    intro cur o
    rw [finalChainEmit, ih]
    obtain ⟨n0, s0, a0, f0⟩ := o
    simp only [addStateE, addArcE, List.length_cons]
    congr 1
    · omega
    · rw [List.append_assoc, List.singleton_append]
      congr 1
      refine cons_map_range rest.length _ _ _ ?_ ?_
      · simp
      · intro k hk
        have h1 : ¬ (k + 1 = 0) := Nat.succ_ne_zero k
        simp only [h1, if_false, List.getD_cons_succ, Prod.mk.injEq, OArc.mk.injEq,
          true_and, and_true]
        by_cases hk0 : k = 0
        · subst hk0; simp
        · rw [if_neg hk0]
          omega
    · simp only [List.append_cancel_left_eq]
      rw [if_neg (by omega : ¬ (rest.length + 1 = 0))]
      by_cases hr : rest.length = 0
      · rw [if_pos hr, hr]
        simp
      · rw [if_neg hr,
          (by omega : n0 + 1 + rest.length - 1 = n0 + (rest.length + 1) - 1)]

lemma chainEmit_false_spec (ops : WOps W) (w : W) (il ns : Nat) :
    ∀ (seq : List Nat) (cur : Nat) (o : OFst W), seq ≠ [] →
    chainEmit ops w il ns false cur seq o = { o with
      numStates := o.numStates + (seq.length - 1),
      arcs := o.arcs ++ (List.range seq.length).map fun k =>
        (if k = 0 then cur else o.numStates + k - 1,
         (⟨0, seq.getD k 0, ops.one,
           if k = seq.length - 1 then ns else o.numStates + k⟩ : OArc W)) } := by
  intro seq
  induction seq with
  | nil => intro cur o h; exact absurd rfl h
  | cons x rest ih =>
    intro cur o _
    cases rest with
    | nil =>
      obtain ⟨n0, s0, a0, f0⟩ := o
      simp [chainEmit, addArcE, List.range_succ]
    | cons y rest2 =>
      rw [chainEmit, ih _ _ (by simp)]
      obtain ⟨n0, s0, a0, f0⟩ := o
      simp only [addStateE, addArcE, List.length_cons]
      congr 1
      · omega
      · rw [List.append_assoc, List.singleton_append]
        congr 1
        refine cons_map_range (rest2.length + 1) _ _ _ ?_ ?_
        · rw [if_pos rfl, if_neg (by omega : ¬ (0 = rest2.length + 1 + 1 - 1))]
          simp
        · intro k hk
          rw [if_neg (Nat.succ_ne_zero k)]
          congr 1
          · split_ifs <;> omega
          · congr 1
            split_ifs <;> omega

lemma chainEmit_spec (ops : WOps W) (w : W) (il ns s : Nat)
    (seq : List Nat) (o : OFst W) (h : seq ≠ []) :
    chainEmit ops w il ns true s seq o = { o with
      numStates := o.numStates + (seq.length - 1),
      arcs := o.arcs ++ (List.range seq.length).map fun k =>
        (if k = 0 then s else o.numStates + k - 1,
         (⟨if k = 0 then il else 0, seq.getD k 0,
           if k = 0 then w else ops.one,
           if k = seq.length - 1 then ns else o.numStates + k⟩ : OArc W)) } := by
  cases seq with
  | nil => exact absurd rfl h
  | cons x rest =>
    cases rest with
    | nil =>
      obtain ⟨n0, s0, a0, f0⟩ := o
      simp [chainEmit, addArcE, List.range_succ]
    | cons y rest2 =>
      rw [chainEmit, chainEmit_false_spec ops w il ns (y :: rest2) _ _ (by simp)]
      obtain ⟨n0, s0, a0, f0⟩ := o
      simp only [addStateE, addArcE, List.length_cons]
      congr 1
      · omega
      · rw [List.append_assoc, List.singleton_append]
        congr 1
        refine cons_map_range (rest2.length + 1) _ _ _ ?_ ?_
        · simp
        · intro k hk
          have h1 : ¬ (k + 1 = 0) := Nat.succ_ne_zero k
          rw [if_neg h1, if_neg h1, if_neg h1]
          congr 1
          · split_ifs <;> omega
          · congr 1
            split_ifs <;> omega

lemma finalChainEmit_spec (ops : WOps W) (w : W) (s : Nat)
    (seq : List Nat) (o : OFst W) :
    finalChainEmit ops w true s seq o = { o with
      numStates := o.numStates + seq.length,
      arcs := o.arcs ++ (List.range seq.length).map fun k =>
        (if k = 0 then s else o.numStates + k - 1,
         (⟨0, seq.getD k 0, if k = 0 then w else ops.one,
           o.numStates + k⟩ : OArc W)),
      finals := o.finals ++
        [(if seq.length = 0 then s else o.numStates + seq.length - 1,
          if seq.length = 0 then w else ops.one)] } := by
  cases seq with
  | nil =>
    obtain ⟨n0, s0, a0, f0⟩ := o
    simp [finalChainEmit, setFinalE]
  | cons x rest =>
    rw [finalChainEmit, finalChainEmit_false_spec ops w rest]
    obtain ⟨n0, s0, a0, f0⟩ := o
    simp only [addStateE, addArcE, List.length_cons]
    congr 1
    · omega
    · rw [List.append_assoc, List.singleton_append]
      congr 1
      refine cons_map_range rest.length _ _ _ ?_ ?_
      · simp
      · intro k hk
        have h1 : ¬ (k + 1 = 0) := Nat.succ_ne_zero k
        rw [if_neg h1, if_neg h1]
        congr 1
        · split_ifs <;> omega
        · congr 1
          omega
    · simp only [List.append_cancel_left_eq]
      have h2 : ¬ (rest.length + 1 = 0) := by omega
      rw [if_neg h2, if_neg h2]
      congr 2
      split_ifs <;> omega

/-- C8: expanded-mode structure.  For a genuine transition whose string has
length `L ≥ 1`, the expanded `Output` emits a chain of `L` arcs through
`L - 1` freshly numbered intermediate states: the k-th arc carries the k-th
output label of the string, the first arc carries the original input label
and the combined weight, every later arc carries epsilon input and weight
`One`, and the last arc ends at the original destination state.  For a final
marker with string length `L`, a fresh chain of `L` epsilon-input arcs
carries the marker weight on its first arc and ends in a state whose final
weight is `One` (the marker weight itself when `L = 0`). -/
theorem outputExpanded_chain_structure (ops : WOps W) (w : W) (il ns s : Nat)
    (seq : List Nat) (o : OFst W) :
    (seq ≠ [] → chainEmit ops w il ns true s seq o = { o with
      numStates := o.numStates + (seq.length - 1),
      arcs := o.arcs ++ (List.range seq.length).map fun k =>
        (if k = 0 then s else o.numStates + k - 1,
         (⟨if k = 0 then il else 0, seq.getD k 0,
           if k = 0 then w else ops.one,
           if k = seq.length - 1 then ns else o.numStates + k⟩ : OArc W)) }) ∧
    (finalChainEmit ops w true s seq o = { o with
      numStates := o.numStates + seq.length,
      arcs := o.arcs ++ (List.range seq.length).map fun k =>
        (if k = 0 then s else o.numStates + k - 1,
         (⟨0, seq.getD k 0, if k = 0 then w else ops.one,
           o.numStates + k⟩ : OArc W)),
      finals := o.finals ++
        [(if seq.length = 0 then s else o.numStates + seq.length - 1,
          if seq.length = 0 then w else ops.one)] }) :=
  ⟨fun h => chainEmit_spec ops w il ns s seq o h,
   finalChainEmit_spec ops w s seq o⟩

theorem outputExpanded_chain_structure_witness :
    (([5, 6, 7] : List Nat) ≠ []) ∧
    (chainEmit natOps 9 4 1 true 0 [5, 6, 7] (⟨2, some 0, [], []⟩ : OFst Nat)
        = ⟨4, some 0, [(0, ⟨4, 5, 9, 2⟩), (2, ⟨0, 6, 1, 3⟩), (3, ⟨0, 7, 1, 1⟩)],
            []⟩) ∧
    (finalChainEmit natOps 9 true 0 [5, 6, 7] (⟨2, some 0, [], []⟩ : OFst Nat)
        = ⟨5, some 0, [(0, ⟨0, 5, 9, 2⟩), (2, ⟨0, 6, 1, 3⟩), (3, ⟨0, 7, 1, 4⟩)],
            [(4, 1)]⟩) :=
  ⟨by decide,
   by
    rw [(outputExpanded_chain_structure natOps 9 4 1 0 [5, 6, 7]
      (⟨2, some 0, [], []⟩ : OFst Nat)).1 (by decide)]
    decide,
   by
    rw [(outputExpanded_chain_structure natOps 9 4 1 0 [5, 6, 7]
      (⟨2, some 0, [], []⟩ : OFst Nat)).2]
    decide⟩

end ChainLemmas

namespace StringRepo


lemma findIdx_of_nodup {A : Type} [DecidableEq A] :
    ∀ (l : List A) (k : Nat) (v : A), l.Nodup → l[k]? = some v →
    ∀ i, List.findIdx? (fun e => decide (e = v)) l i = some (i + k) := by
  intro l
  induction l with
  | nil => intro k v _ h i; simp at h
  | cons x xs ih =>
    intro k v hnod h i
    rw [List.nodup_cons] at hnod
    cases k with
    | zero =>
      simp at h
      subst h
      simp [List.findIdx?_cons]
    | succ j =>
      simp only [List.getElem?_cons_succ] at h
      have hxv : ¬ (x = v) := by
        intro hh
        exact hnod.1 (hh ▸ List.getElem?_mem h)
      rw [List.findIdx?_cons]
      rw [if_neg (by simpa using hxv)]
      rw [ih j v hnod.2 h (i + 1)]
      congr 1
      omega



lemma parent_lt (r : Repo) (hw : wfRepo r) (k : Nat) (hk : k < r.length)
    (p : Nat) (i : Nat) (hget : r.getD k (none, 0) = (some p, i)) : p < k := by
  have := hw.2 k hk
  rw [hget] at this
  simpa [parentOKb] using this

lemma toVecF_mono (r : Repo) (hw : wfRepo r) :
    ∀ k, k < r.length → ∀ f1 f2, k < f1 → k < f2 →
      toVecF r f1 (some k) = toVecF r f2 (some k) := by
  intro k
  induction k using Nat.strong_induction_on with
  | _ k ih =>
    intro hk f1 f2 h1 h2
    obtain ⟨g1, rfl⟩ : ∃ g, f1 = g + 1 := ⟨f1 - 1, by omega⟩
    obtain ⟨g2, rfl⟩ : ∃ g, f2 = g + 1 := ⟨f2 - 1, by omega⟩
    rcases hget : r.getD k (none, 0) with ⟨p, i⟩
    rw [toVecF, toVecF, if_pos hk, if_pos hk, hget]
    cases p with
    | none => simp [toVecF]
    | some p2 =>
      have hp2 : p2 < k := parent_lt r hw k hk p2 i hget
      have := ih p2 hp2 (by omega) g1 g2 (by omega) (by omega)
      simp only [this]

lemma toVec_none (r : Repo) : toVec r none = [] := by
  simp [toVec, toVecF]

lemma toVecF_append (r ext : Repo) (hw : wfRepo r) :
    ∀ (f k : Nat), k < r.length →
      toVecF (r ++ ext) f (some k) = toVecF r f (some k) := by
  intro f
  induction f with
  | zero => intro k hk; rfl
  | succ f ih =>
    intro k hk
    have hk2 : k < (r ++ ext).length := by simp; omega
    have hget : (r ++ ext).getD k (none, 0) = r.getD k (none, 0) := by
      simp [List.getD_eq_getElem?_getD, List.getElem?_append_left hk]
    rw [toVecF, toVecF, if_pos hk, if_pos hk2, hget]
    rcases hg2 : r.getD k (none, 0) with ⟨p, i⟩
    cases p with
    | none => simp [toVecF]
    | some p2 =>
      have hp2 : p2 < k := parent_lt r hw k hk p2 i hg2
      simp only []
      rw [ih p2 (by omega)]

lemma toVec_extend (r ext : Repo) (hw : wfRepo r) (h : Option Nat)
    (hv : validHb r h = true) :
    toVec (r ++ ext) h = toVec r h := by
  cases h with
  | none => rw [toVec_none, toVec_none]
  | some k =>
    have hk : k < r.length := by simpa [validHb] using hv
    unfold toVec
    rw [toVecF_append r ext hw _ k hk]
    exact toVecF_mono r hw k hk _ _ (by simp; omega) (by omega)

lemma toVec_some (r : Repo) (hw : wfRepo r) (k : Nat) (hk : k < r.length)
    (p : Option Nat) (i : Nat) (hget : r.getD k (none, 0) = (p, i)) :
    toVec r (some k) = toVec r p ++ [i] ∧ validHb r p = true := by
  have hvp : validHb r p = true := by
    cases p with
    | none => rfl
    | some p2 =>
      have := parent_lt r hw k hk p2 i hget
      simpa [validHb] using by omega
  refine ⟨?_, hvp⟩
  unfold toVec
  obtain ⟨f, hf⟩ : ∃ f, r.length = f + 1 := ⟨r.length - 1, by omega⟩
  rw [hf]
  rw [toVecF, if_pos hk, hget]
  congr 1
  cases p with
  | none => simp [toVecF]
  | some p2 =>
    have hp2 : p2 < k := parent_lt r hw k hk p2 i hget
    simp only []
    exact toVecF_mono r hw p2 (by omega) f (f + 1) (by omega) (by omega)

lemma findIdx?_some_spec {A : Type} (p : A → Bool) :
    ∀ (l : List A) (i k : Nat), List.findIdx? p l i = some k →
      i ≤ k ∧ k - i < l.length ∧ ∃ v, l[k - i]? = some v ∧ p v = true := by
  intro l
  induction l with
  | nil => intro i k h; simp [List.findIdx?_nil] at h
  | cons x xs ih =>
    intro i k h
    rw [List.findIdx?_cons] at h
    by_cases hp : p x = true
    · rw [if_pos hp] at h
      cases h
      exact ⟨le_refl _, by simp, x, by simp, hp⟩
    · rw [if_neg hp] at h
      obtain ⟨h1, h2, v, h3, h4⟩ := ih (i + 1) k h
      refine ⟨by omega, by simp; omega, v, ?_, h4⟩
      have hki : k - i = (k - (i + 1)) + 1 := by omega
      rw [hki, List.getElem?_cons_succ]
      exact h3

lemma successor_spec (r : Repo) (p : Option Nat) (i : Nat) (hw : wfRepo r)
    (hv : validHb r p = true) :
    wfRepo (successor r p i).1 ∧
    (∃ k, (successor r p i).2 = some k ∧ k < (successor r p i).1.length ∧
      (successor r p i).1[k]? = some (p, i)) ∧
    ((successor r p i).1 = r ∨ (successor r p i).1 = r ++ [(p, i)]) := by
  unfold successor
  cases hf : r.findIdx? (fun e => decide (e = (p, i))) with
  | some k =>
    obtain ⟨_, hlen, v, hget, hpv⟩ := findIdx?_some_spec _ r 0 k hf
    rw [Nat.sub_zero] at hlen hget
    have hv2 : v = (p, i) := by simpa using hpv
    subst hv2
    exact ⟨hw, ⟨k, rfl, hlen, hget⟩, Or.inl rfl⟩
  | none =>
    have hnotin : (p, i) ∉ r := by
      intro hmem
      have := (List.findIdx?_eq_none_iff.mp hf) _ hmem
      simp at this
    refine ⟨⟨?_, ?_⟩, ⟨r.length, rfl, by simp, List.getElem?_concat_length r (p, i)⟩,
      Or.inr rfl⟩
    · rw [List.nodup_append]
      exact ⟨hw.1, List.nodup_singleton _, fun a ha hb => by
        simp at hb
        exact hnotin (hb ▸ ha)⟩
    · intro k hk
      simp only [List.length_append, List.length_singleton] at hk
      by_cases hkr : k < r.length
      · have : (r ++ [(p, i)]).getD k (none, 0) = r.getD k (none, 0) := by
          simp [List.getD_eq_getElem?_getD, List.getElem?_append_left hkr]
        rw [this]
        exact hw.2 k hkr
      · have hkeq : k = r.length := by omega
        subst hkeq
        have : (r ++ [(p, i)]).getD r.length (none, 0) = (p, i) := by
          simp [List.getD_eq_getElem?_getD, List.getElem?_concat_length]
        rw [this]
        cases p with
        | none => rfl
        | some p2 =>
          have : p2 < r.length := by simpa [validHb] using hv
          simpa [parentOKb] using this

lemma internFrom_spec :
    ∀ (v : List Nat) (r : Repo) (h : Option Nat), wfRepo r → validHb r h = true →
    wfRepo (internFrom r h v).1 ∧
    validHb (internFrom r h v).1 (internFrom r h v).2 = true ∧
    (∃ ext, (internFrom r h v).1 = r ++ ext) ∧
    toVec (internFrom r h v).1 (internFrom r h v).2 = toVec r h ++ v := by
  intro v
  induction v with
  | nil =>
    intro r h hw hv
    exact ⟨hw, hv, ⟨[], by simp [internFrom]⟩, by simp [internFrom]⟩
  | cons x xs ih =>
    intro r h hw hv
    obtain ⟨hwq, ⟨k, hk2, hklen, hkget⟩, hor⟩ := successor_spec r h x hw hv
    have hstep : internFrom r h (x :: xs)
        = internFrom (successor r h x).1 (successor r h x).2 xs := rfl
    have hvq : validHb (successor r h x).1 (successor r h x).2 = true := by
      rw [hk2]; simpa [validHb] using hklen
    obtain ⟨ihw, ihv, ⟨ext2, ihext⟩, ihtv⟩ :=
      ih (successor r h x).1 (successor r h x).2 hwq hvq
    have hgetD : (successor r h x).1.getD k (none, 0) = (h, x) := by
      rw [List.getD_eq_getElem?_getD, hkget]
      rfl
    have hsome := toVec_some (successor r h x).1 hwq k hklen h x hgetD
    have htq : toVec (successor r h x).1 (successor r h x).2
        = toVec r h ++ [x] := by
      rw [hk2, hsome.1]
      congr 1
      rcases hor with h1 | h1
      · rw [h1]
      · rw [h1]
        exact toVec_extend r [(h, x)] hw h hv
    refine ⟨by rw [hstep]; exact ihw, by rw [hstep]; exact ihv, ?_, ?_⟩
    · rw [hstep]
      rcases hor with h1 | h1
      · exact ⟨ext2, by rw [ihext, h1]⟩
      · exact ⟨(h, x) :: ext2, by rw [ihext, h1, List.append_assoc]; rfl⟩
    · rw [hstep, ihtv, htq, List.append_assoc]
      rfl

lemma successor_stable (r2 : Repo) (p : Option Nat) (i k : Nat)
    (hnod : r2.Nodup) (hget : r2[k]? = some (p, i)) :
    successor r2 p i = (r2, some k) := by
  unfold successor
  rw [findIdx_of_nodup r2 k (p, i) hnod hget 0]
  simp

lemma internFrom_idem :
    ∀ (v : List Nat) (r : Repo) (h : Option Nat), wfRepo r →
      validHb r h = true → ∀ (r2 : Repo), r2.Nodup →
      (∃ ext, r2 = (internFrom r h v).1 ++ ext) →
    internFrom r2 h v = (r2, (internFrom r h v).2) := by
  intro v
  induction v with
  | nil =>
    intro r h _ _ r2 _ _
    rfl
  | cons x xs ih =>
    intro r h hw hv r2 hnod hpre
    obtain ⟨hwq, ⟨k, hk2, hklen, hkget⟩, hor⟩ := successor_spec r h x hw hv
    have hvq : validHb (successor r h x).1 (successor r h x).2 = true := by
      rw [hk2]; simpa [validHb] using hklen
    obtain ⟨_, _, ⟨ext2, ihext⟩, _⟩ :=
      internFrom_spec xs (successor r h x).1 (successor r h x).2 hwq hvq
    obtain ⟨ext3, hext3⟩ := hpre
    have hstep : internFrom r h (x :: xs)
        = internFrom (successor r h x).1 (successor r h x).2 xs := rfl
    have hget2 : r2[k]? = some (h, x) := by
      rw [hext3, hstep, ihext, List.append_assoc, List.getElem?_append_left hklen]
      exact hkget
    have hsucc2 : successor r2 h x = (r2, some k) :=
      successor_stable r2 h x k hnod hget2
    have hstep2 : internFrom r2 h (x :: xs)
        = internFrom (successor r2 h x).1 (successor r2 h x).2 xs := rfl
    rw [hstep2, hsucc2]
    have hr2pre : ∃ ext, r2 = (internFrom (successor r h x).1
        (successor r h x).2 xs).1 ++ ext := by
      exact ⟨ext3, by rw [hext3, hstep]⟩
    have := ih (successor r h x).1 (successor r h x).2 hwq hvq r2 hnod hr2pre
    rw [hk2] at this
    rw [hstep, hk2]
    exact this

/-- C9: hash-consing uniqueness.  Interning `v` and then `w` in the same
repository yields the identical handle exactly when `v = w`; `Successor` on
the same `(parent, label)` pair always returns the same handle (and leaves
the repository unchanged once the entry exists); and the empty sequence is
always the fixed `NULL` sentinel handle. -/
theorem interned_handle_unique (r0 : Repo) (v w : List Nat) (hw : wfRepo r0) :
    ((convertFromVector (convertFromVector r0 v).1 w).2 = (convertFromVector r0 v).2
      ↔ v = w) ∧
    (∀ (p : Option Nat) (i : Nat), validHb r0 p = true →
      successor (successor r0 p i).1 p i = successor r0 p i) ∧
    convertFromVector r0 [] = (r0, none) := by
  refine ⟨?_, ?_, rfl⟩
  · simp only [convertFromVector]
    obtain ⟨hw1, hv1, ⟨e1, he1⟩, ht1⟩ :=
      internFrom_spec v r0 none hw rfl
    obtain ⟨hw2, hv2, ⟨e2, he2⟩, ht2⟩ :=
      internFrom_spec w (internFrom r0 none v).1 none hw1 rfl
    rw [toVec_none] at ht1 ht2
    rw [List.nil_append] at ht1 ht2
    constructor
    · intro hEq
      have hval2 : toVec (internFrom (internFrom r0 none v).1 none w).1
          (internFrom r0 none v).2 = v := by
        rw [he2, toVec_extend (internFrom r0 none v).1 e2 hw1 _ hv1, ht1]
      rw [← hEq] at hval2
      rw [ht2] at hval2
      exact hval2.symm
    · intro hEq
      subst hEq
      have hidem := internFrom_idem v r0 none hw rfl (internFrom r0 none v).1
        hw1.1 ⟨[], by simp⟩
      rw [hidem]
  · intro p i hv
    obtain ⟨hwq, ⟨k, hk2, hklen, hkget⟩, _⟩ := successor_spec r0 p i hw hv
    have := successor_stable (successor r0 p i).1 p i k hwq.1 hkget
    rw [this, ← hk2]

theorem interned_handle_unique_witness :
    wfRepo ([] : Repo) ∧
    (((convertFromVector (convertFromVector ([] : Repo) [3]).1 [3, 4]).2
        = (convertFromVector ([] : Repo) [3]).2 ↔ [3] = [3, 4]) ∧
     (∀ (p : Option Nat) (i : Nat), validHb ([] : Repo) p = true →
        successor (successor ([] : Repo) p i).1 p i = successor ([] : Repo) p i) ∧
     convertFromVector ([] : Repo) [] = (([] : Repo), none)) :=
  ⟨by decide, interned_handle_unique [] [3] [3, 4] (by decide)⟩

end StringRepo
